import Mathlib

/-!
# graph.c : polynomial parser, evaluator, rasteriser and PPM writer

A shallow embedding of `src/graph.c`.

* C strings are `List Char`; a cursor (`char **expr`) is the list of the
  characters that remain, the empty list standing at the terminating NUL.
* `float` and `double` are IEEE 754 binary32 / binary64 values, modelled by
  `FP` with round-to-nearest-even (`FP.round`); the sign of zero and the
  payload of NaN are not tracked, since the program never observes them.
* `size_t` values are naturals below `2 ^ 64`; conversions and index
  arithmetic reduce modulo `2 ^ 64` where the C code can wrap.
* The C library functions the program calls (`isspace`, `isdigit`, `strtof`,
  `strtod`, `powf`, `atoi`, `sscanf` with `%x`, `calloc`) are modelled from
  the C standard, following glibc on x86-64 where the standard leaves the
  behaviour open.
* Growable arrays (`GROW_ARRAY`) are lists; allocation is assumed to succeed.
-/

namespace GraphC

/-! ## Floating point -/

/-- Auxiliary for `bitLen`, with the fuel as first argument. -/
def bitLenAux : Nat → Nat → Nat
  | 0, _ => 0
  | fuel + 1, n => if n = 0 then 0 else bitLenAux fuel (n / 2) + 1

/-- Number of binary digits of `n` (`0` for `n = 0`). -/
def bitLen (n : Nat) : Nat := bitLenAux n n

/-- A binary floating-point format: precision in bits, and the least and
greatest exponent of the unit in the last place. -/
structure Fmt where
  prec : Nat
  emin : Int
  emax : Int
deriving DecidableEq, Repr

/-- IEEE 754 binary32, the C type `float`. -/
def binary32 : Fmt := ⟨24, -149, 104⟩

/-- IEEE 754 binary64, the C type `double`. -/
def binary64 : Fmt := ⟨53, -1074, 971⟩

/-- A floating-point datum: `fin neg m e` is `(-1)^neg * m * 2^e`. -/
inductive FP where
  | fin (neg : Bool) (m : Nat) (e : Int)
  | inf (neg : Bool)
  | nan
deriving DecidableEq, Repr

namespace FP

/-- The zero of every format (its sign is not tracked). -/
def zero : FP := fin false 0 0

/-- Package a rounded significand: zero is canonical, an exponent above
the format's range overflows to infinity. -/
def finish (f : Fmt) (neg : Bool) (n : Nat) (e : Int) : FP :=
  if n = 0 then zero else if f.emax < e then inf neg else fin neg n e

/-- Round the exact value `(-1)^neg * N * 2^X` to the format `f`, to nearest,
ties to even. -/
def round (f : Fmt) (neg : Bool) (N : Nat) (X : Int) : FP :=
  let E : Int := max (X + (bitLen N : Int) - (f.prec : Int)) f.emin
  if E ≤ X then
    finish f neg (N * 2 ^ (X - E).toNat) E
  else
    let s := (E - X).toNat
    let q := N / 2 ^ s
    let r := N % 2 ^ s
    let half := 2 ^ (s - 1)
    let n := if half < r ∨ (r = half ∧ q % 2 = 1) then q + 1 else q
    if n = 2 ^ f.prec then finish f neg (2 ^ (f.prec - 1)) (E + 1)
    else finish f neg n E

/-- Round the exact rational `(-1)^neg * a / b` (`b > 0`) to the format `f`:
the quotient is taken with enough extra bits, and a sticky bit records an
inexact division. -/
def roundRat (f : Fmt) (neg : Bool) (a b : Nat) : FP :=
  let t := bitLen b + f.prec + 2 + f.emin.natAbs
  let q := a * 2 ^ t / b
  let sticky := if a * 2 ^ t % b = 0 then 0 else 1
  round f neg (2 * q + sticky) (-((t : Int) + 1))

/-- Conversion of an unsigned integer to the format `f`. -/
def ofNat (f : Fmt) (n : Nat) : FP := round f false n 0

/-- Conversion between formats (`double` to `float` rounds). -/
def cvt (f : Fmt) : FP → FP
  | fin s m e => round f s m e
  | x => x

/-- Negation. -/
def neg : FP → FP
  | fin s m e => if m = 0 then zero else fin (!s) m e
  | inf s => inf (!s)
  | nan => nan

/-- The significand with its sign. -/
def signed (s : Bool) (m : Nat) : Int := if s then -(m : Int) else (m : Int)

/-- Addition in the format `f`. -/
def add (f : Fmt) : FP → FP → FP
  | nan, _ => nan
  | _, nan => nan
  | inf a, inf b => if a = b then inf a else nan
  | inf a, fin _ _ _ => inf a
  | fin _ _ _, inf b => inf b
  | fin s1 m1 e1, fin s2 m2 e2 =>
    let e := min e1 e2
    let c := signed s1 (m1 * 2 ^ (e1 - e).toNat) + signed s2 (m2 * 2 ^ (e2 - e).toNat)
    round f (decide (c < 0)) c.natAbs e

/-- Subtraction in the format `f`. -/
def sub (f : Fmt) (x y : FP) : FP := add f x (neg y)

/-- Multiplication in the format `f`. -/
def mul (f : Fmt) : FP → FP → FP
  | nan, _ => nan
  | _, nan => nan
  | inf a, inf b => inf (xor a b)
  | inf a, fin s m _ => if m = 0 then nan else inf (xor a s)
  | fin s m _, inf b => if m = 0 then nan else inf (xor s b)
  | fin s1 m1 e1, fin s2 m2 e2 => round f (xor s1 s2) (m1 * m2) (e1 + e2)

/-- The integer part of the magnitude of a finite value (`0` otherwise). -/
def truncNat : FP → Nat
  | fin _ m e => if 0 ≤ e then m * 2 ^ e.toNat else m / 2 ^ (-e).toNat
  | _ => 0

/-- Conversion of a floating-point value to `size_t`. In range it truncates
toward zero. Out of range the C standard leaves the result undefined; the
model follows the x86-64 code gcc emits (`cvttss2si` / `cvttsd2si`, with
the `2 ^ 63` adjustment for large values): a negative value wraps modulo
`2 ^ 64`, and what does not fit yields the "integer indefinite" pattern
`2 ^ 63` (or `0` after the adjustment). -/
def toSizeT : FP → Nat
  | nan => 2 ^ 63
  | inf s => if s then 2 ^ 63 else 0
  | fin s m e =>
    let t := truncNat (fin s m e)
    if s then (if t ≤ 2 ^ 63 then (2 ^ 64 - t) % 2 ^ 64 else 2 ^ 63)
    else (if t < 2 ^ 64 then t else 0)

/-- Whether a datum is a canonical value of the format `f`: zero is
`FP.zero`, a non-zero significand has at most `prec` bits and is normalised
unless the exponent is the least one. -/
def Valid (f : Fmt) : FP → Prop
  | fin s m e =>
    if m = 0 then s = false ∧ e = 0
    else m < 2 ^ f.prec ∧ f.emin ≤ e ∧ e ≤ f.emax ∧ (2 ^ (f.prec - 1) ≤ m ∨ e = f.emin)
  | _ => True

instance (f : Fmt) (x : FP) : Decidable (Valid f x) := by
  cases x <;> simp only [Valid] <;> infer_instance

/-- A finite value (neither infinite nor NaN). -/
def isFinite : FP → Bool
  | fin _ _ _ => true
  | _ => false

end FP

/-- The `float` value of a natural number. -/
def f32 (n : Nat) : FP := FP.ofNat binary32 n

/-- C library `powf(x, y)` for an exponent `y` that is the non-negative
integer `k` (the only exponents `term_solve` passes): `powf(x, 0)` is `1`
for every `x`, NaN included; otherwise the exact power is rounded to
`float` (the library result is taken to be correctly rounded). -/
def powf (x : FP) (k : Nat) : FP :=
  if k = 0 then f32 1
  else match x with
    | FP.nan => FP.nan
    | FP.inf s => FP.inf (s && decide (k % 2 = 1))
    | FP.fin s m e => FP.round binary32 (s && decide (k % 2 = 1)) (m ^ k) (e * (k : Int))

/-! ## C library: characters and numeric conversions -/

/-- C `isspace` in the "C" locale: space, `\t`, `\n`, `\v`, `\f`, `\r`. -/
def isspace (c : Char) : Bool := c.toNat = 32 || (9 ≤ c.toNat && c.toNat ≤ 13)

/-- C `isdigit`. -/
def isdigit (c : Char) : Bool := 48 ≤ c.toNat && c.toNat ≤ 57

/-- C `isalpha` in the "C" locale. -/
def isalpha (c : Char) : Bool :=
  (65 ≤ c.toNat && c.toNat ≤ 90) || (97 ≤ c.toNat && c.toNat ≤ 122)

/-- The value of a hexadecimal digit, if the character is one. -/
def hexVal (c : Char) : Option Nat :=
  if isdigit c then some (c.toNat - 48)
  else if 97 ≤ c.toNat ∧ c.toNat ≤ 102 then some (c.toNat - 87)
  else if 65 ≤ c.toNat ∧ c.toNat ≤ 70 then some (c.toNat - 55)
  else none

/-- C `isxdigit`. -/
def isxdigit (c : Char) : Bool := (hexVal c).isSome

/-- The character a cursor points at: the head of the remaining text, or NUL
at its end. -/
def peek (s : List Char) : Char := s.headD (Char.ofNat 0)

/-- Value of a string of decimal digits. -/
def decVal (ds : List Char) : Nat := ds.foldl (fun a c => a * 10 + (c.toNat - 48)) 0

/-- Value of a string of hexadecimal digits. -/
def hexNum (ds : List Char) : Nat := ds.foldl (fun a c => a * 16 + (hexVal c).getD 0) 0

/-- ASCII lower case of a letter. -/
def lower (c : Char) : Char :=
  if 65 ≤ c.toNat ∧ c.toNat ≤ 90 then Char.ofNat (c.toNat + 32) else c

/-- Whether the text starts with the lower-case word `w`, ignoring case. -/
def startsNoCase (w s : List Char) : Bool := (s.take w.length).map lower == w

/-- An optional exponent part: the marker `mk` (given in lower case), an
optional sign and at least one decimal digit. Returns the exponent and the
rest; without a complete exponent part nothing is consumed. -/
def expPart (mk : Char) (s : List Char) : Int × List Char :=
  match s with
  | c :: r =>
    if lower c = mk then
      let sg := peek r = '-'
      let r1 := if peek r = '-' ∨ peek r = '+' then r.drop 1 else r
      let ds := r1.takeWhile isdigit
      if ds = [] then (0, s)
      else ((if sg then -(decVal ds : Int) else (decVal ds : Int)), r1.dropWhile isdigit)
    else (0, s)
  | [] => (0, s)

/-- The decimal form of the subject sequence of `strtod`: digits with an
optional point and an optional exponent, rounded to the format `f`. -/
def strtoDec (f : Fmt) (neg : Bool) (s : List Char) : Option (FP × List Char) :=
  let ip := s.takeWhile isdigit
  let r1 := s.dropWhile isdigit
  let fp := if peek r1 = '.' then (r1.drop 1).takeWhile isdigit else []
  let r2 := if peek r1 = '.' then (r1.drop 1).dropWhile isdigit else r1
  if ip = [] ∧ fp = [] then none
  else
    let ex := expPart 'e' r2
    let d := decVal (ip ++ fp)
    let k : Int := ex.1 - (fp.length : Int)
    some ((if 0 ≤ k then FP.round f neg (d * 10 ^ k.toNat) 0
           else FP.roundRat f neg d (10 ^ (-k).toNat)), ex.2)

/-- The hexadecimal form (`0x` already consumed): hexadecimal digits with an
optional point and an optional binary exponent. -/
def strtoHex (f : Fmt) (neg : Bool) (s : List Char) : Option (FP × List Char) :=
  let ip := s.takeWhile isxdigit
  let r1 := s.dropWhile isxdigit
  let fp := if peek r1 = '.' then (r1.drop 1).takeWhile isxdigit else []
  let r2 := if peek r1 = '.' then (r1.drop 1).dropWhile isxdigit else r1
  if ip = [] ∧ fp = [] then none
  else
    let ex := expPart 'p' r2
    some (FP.round f neg (hexNum (ip ++ fp)) (ex.1 - 4 * (fp.length : Int)), ex.2)

/-- The subject sequence of `strtod` after the sign: `inf`, `infinity`,
`nan` with an optional parenthesised tag, a hexadecimal or a decimal
number. `none` when no conversion can be performed. -/
def strtoBody (f : Fmt) (neg : Bool) (s : List Char) : Option (FP × List Char) :=
  if startsNoCase ['i', 'n', 'f', 'i', 'n', 'i', 't', 'y'] s then
    some (FP.inf neg, s.drop 8)
  else if startsNoCase ['i', 'n', 'f'] s then some (FP.inf neg, s.drop 3)
  else if startsNoCase ['n', 'a', 'n'] s then
    let r := s.drop 3
    let tag := (r.drop 1).takeWhile (fun c => isdigit c || isalpha c || c = '_')
    let r1 := (r.drop 1).dropWhile (fun c => isdigit c || isalpha c || c = '_')
    if peek r = '(' ∧ peek r1 = ')' then some (FP.nan, (r.drop 1).drop (tag.length + 1))
    else some (FP.nan, r)
  else if startsNoCase ['0', 'x'] s then
    match strtoHex f neg (s.drop 2) with
    | some v => some v
    | none => strtoDec f neg s
  else strtoDec f neg s

/-- C `strtod` / `strtof` (for the format `f`): skips white space, reads an
optional sign and the longest number, returns the correctly rounded value and
the cursor after it. When nothing can be converted the value is zero and the
cursor is where it was. -/
def strto (f : Fmt) (s : List Char) : FP × List Char :=
  let s1 := s.dropWhile isspace
  let s2 := if peek s1 = '-' ∨ peek s1 = '+' then s1.drop 1 else s1
  match strtoBody f (peek s1 = '-') s2 with
  | some v => v
  | none => (FP.zero, s)

/-- C `strtof`. -/
def strtof (s : List Char) : FP × List Char := strto binary32 s

/-- C `strtod`. -/
def strtod (s : List Char) : FP × List Char := strto binary64 s

/-- C `atoi` followed by the conversion of the `int` to `size_t`, as in
`graph->rows = atoi(argv[i])`. `atoi` skips white space, reads an optional
sign and the leading decimal digits (`0` when there are none); as in glibc
the value is that of `strtol` (clamped to the range of `long`) cut to 32
bits. A negative `int` wraps modulo `2 ^ 64` on conversion to `size_t`. -/
def atoi_size_t (s : List Char) : Nat :=
  let s1 := s.dropWhile isspace
  let s2 := if peek s1 = '-' ∨ peek s1 = '+' then s1.drop 1 else s1
  let v := decVal (s2.takeWhile isdigit)
  let l : Int := if peek s1 = '-' then -(min v (2 ^ 63) : Nat) else (min v (2 ^ 63 - 1) : Nat)
  let i : Int := (l + 2 ^ 31) % 2 ^ 32 - 2 ^ 31
  (i % 2 ^ 64).toNat

/-- C `sscanf(s, "%x", &out)`: skips white space, reads an optional sign, an
optional `0x` and hexadecimal digits. Returns the number of items stored (`1`
or, when no digit is found, not `1`) and the stored `unsigned int`: as in
glibc the value of `strtoul`, cut to 32 bits. -/
def sscanf_x (s : List Char) : Option Nat :=
  let s1 := s.dropWhile isspace
  let s2 := if peek s1 = '-' ∨ peek s1 = '+' then s1.drop 1 else s1
  let s3 := if startsNoCase ['0', 'x'] s2 then s2.drop 2 else s2
  let ds := s3.takeWhile isxdigit
  if ds = [] then none
  else
    let v := min (hexNum ds) (2 ^ 64 - 1)
    some ((if peek s1 = '-' then (2 ^ 64 - v) % 2 ^ 64 else v) % 2 ^ 32)

/-! ## Terms and lines (`Term`, `Line`, parser and evaluator) -/

/-- A term of a polynomial: `scale * x ^ power`. -/
structure Term where
  scale : FP
  power : Nat
deriving DecidableEq, Repr

/-- A polynomial: the terms `terms[0 .. count)` in order. -/
abbrev Line := List Term

/-- C `skip_whitespace`: advance the cursor over white space. -/
def skip_whitespace (expr : List Char) : List Char := expr.dropWhile isspace

/-- C `parse_scale`: a `float` literal when the cursor is at a digit or at
`-`, else `1.0` with nothing consumed. -/
def parse_scale (expr : List Char) : FP × List Char :=
  let e := skip_whitespace expr
  if isdigit (peek e) ∨ peek e = '-' then strtof e else (f32 1, e)

/-- C `parse_power`: `0` unless the cursor is at `x`; after the `x`, the
number that follows when it starts with a digit (read by `strtod` and
converted to `size_t`), else `1`. -/
def parse_power (expr : List Char) : Nat × List Char :=
  let e := skip_whitespace expr
  if peek e ≠ 'x' then (0, e)
  else
    let e1 := skip_whitespace (e.drop 1)
    if isdigit (peek e1) then ((strtod e1).1.toSizeT, (strtod e1).2) else (1, e1)

/-- C `term_parse`: returns the `bool` result, the term (unchanged when the
result is `false`) and the cursor. The product `-1.0 * parse_scale(expr)` is
exact, hence a negation. -/
def term_parse (term : Term) (expr : List Char) : Bool × Term × List Char :=
  let e := skip_whitespace expr
  if peek e = '-' then
    let sc := parse_scale (e.drop 1)
    let pw := parse_power sc.2
    (true, ⟨FP.neg sc.1, pw.1⟩, pw.2)
  else if peek e = '+' then
    let sc := parse_scale (e.drop 1)
    let pw := parse_power sc.2
    (true, ⟨sc.1, pw.1⟩, pw.2)
  else if peek e = Char.ofNat 0 then (false, term, e)
  else
    let sc := parse_scale e
    let pw := parse_power sc.2
    (true, ⟨sc.1, pw.1⟩, pw.2)

/-- C `term_solve`: `scale * powf(x, power)`; the `size_t` power is converted
to `float` for the call. -/
def term_solve (term : Term) (x : FP) : FP :=
  FP.mul binary32 term.scale (powf x (f32 term.power).truncNat)

/-- C `line_append`. -/
def line_append (line : Line) (term : Term) : Line := line ++ [term]

/-- The loop of C `line_parse`, with a bound on the number of iterations:
`none` when the loop has not ended within `fuel` calls of `term_parse`. -/
def line_parse_loop : Nat → Term → Line → List Char → Option (Line × List Char)
  | 0, _, _, _ => none
  | fuel + 1, term, line, expr =>
    match term_parse term expr with
    | (true, t, e) => line_parse_loop fuel t (line_append line t) e
    | (false, _, e) => some (line, e)

/-- C `line_parse`, with a bound on the iterations of its loop. -/
def line_parse (fuel : Nat) (line : Line) (expr : List Char) : Option (Line × List Char) :=
  line_parse_loop fuel ⟨FP.zero, 0⟩ line expr

/-- C `line_solve`: the sum of the terms at `x`, accumulated in order. -/
def line_solve (line : Line) (x : FP) : FP :=
  line.foldl (fun result t => FP.add binary32 result (term_solve t x)) FP.zero

/-! ## The graph (`Graph`, argument parsing, rasteriser, PPM writer) -/

/-- C `Graph`: the lines, the dimensions, the two colours, the output path
and the row-major grid (`grid[y * cols + x]`). -/
structure Graph where
  lines : List Line
  rows : Nat
  cols : Nat
  fore : Nat
  back : Nat
  path : List Char
  grid : List Bool
deriving DecidableEq, Repr

/-- The zero-initialised graph of `main` (`Graph graph = {0}`). -/
def Graph.init : Graph := ⟨[], 0, 0, 0, 0, [], []⟩

/-- How a call ends: it returns a value, the process exits with a status
(`exit` in `ASSERT` or after `-h`), or the call has not ended within the
given bound. -/
inductive Run (α : Type) where
  | ok (a : α)
  | exit (status : Nat)
  | timeout
deriving DecidableEq, Repr

/-- C `graph_append`. -/
def graph_append (graph : Graph) (line : Line) : Graph :=
  { graph with lines := graph.lines ++ [line] }

/-- C `calloc(n, sizeof(bool))`: `n` cells, all `false`. -/
def calloc (n : Nat) : List Bool := List.replicate n false

/-- The colour argument of `-f` / `-b`: a leading `#` is skipped before
`sscanf`. -/
def colour_arg (a : List Char) : List Char := if peek a = '#' then a.drop 1 else a

/-- The loop of C `graph_args` over `argv[1 ..]`; `fuel` bounds each call of
`line_parse`. -/
def graph_args_loop (fuel : Nat) : Graph → List (List Char) → Run Graph
  | graph, [] => Run.ok graph
  | graph, a :: rest =>
    if a = ['-', 'r'] then
      match rest with
      | [] => Run.exit 1
      | v :: rest1 =>
        if atoi_size_t v = 0 then Run.exit 1
        else graph_args_loop fuel { graph with rows := atoi_size_t v } rest1
    else if a = ['-', 'c'] then
      match rest with
      | [] => Run.exit 1
      | v :: rest1 =>
        if atoi_size_t v = 0 then Run.exit 1
        else graph_args_loop fuel { graph with cols := atoi_size_t v } rest1
    else if a = ['-', 'f'] then
      match rest with
      | [] => Run.exit 1
      | v :: rest1 =>
        match sscanf_x (colour_arg v) with
        | some c => graph_args_loop fuel { graph with back := c } rest1
        | none => Run.exit 1
    else if a = ['-', 'b'] then
      match rest with
      | [] => Run.exit 1
      | v :: rest1 =>
        match sscanf_x (colour_arg v) with
        | some c => graph_args_loop fuel { graph with back := c } rest1
        | none => Run.exit 1
    else if a = ['-', 'o'] then
      match rest with
      | [] => Run.exit 1
      | v :: rest1 => graph_args_loop fuel { graph with path := v } rest1
    else if a = ['-', 'h'] then Run.exit 0
    else if peek a = '-' then Run.exit 1
    else
      match line_parse fuel [] a with
      | some l => graph_args_loop fuel (graph_append graph l.1) rest
      | none => Run.timeout

/-- C `graph_args`: the defaults, the loop over the arguments after
`argv[0]`, then the allocation of the grid (`rows * cols` in `size_t`). -/
def graph_args (fuel : Nat) (graph : Graph) (argv : List (List Char)) : Run Graph :=
  match graph_args_loop fuel
      { graph with rows := 100, cols := 100, fore := 0x93E0E3, back := 0x3F3F3F,
                   path := "output.ppm".toList }
      (argv.drop 1) with
  | Run.ok g => Run.ok { g with grid := calloc (g.rows * g.cols % 2 ^ 64) }
  | Run.exit n => Run.exit n
  | Run.timeout => Run.timeout

/-- The value of `cols / 2.0` (and `rows / 2.0`) stored in a `float`: the `size_t` is
converted to `double`, halved, and the quotient rounded to `float`. -/
def half_float (n : Nat) : FP :=
  FP.cvt binary32 (FP.mul binary64 (FP.ofNat binary64 n) (FP.fin false (2 ^ 52) (-53)))

/-- The row of a line at column `x`:
`size_t y = dy - line_solve(line, x - dx)`. -/
def sample_row (rows cols : Nat) (line : Line) (x : Nat) : Nat :=
  (FP.sub binary32 (half_float rows)
    (line_solve line (FP.sub binary32 (f32 x) (half_float cols)))).toSizeT

/-- Macro `MIN`. -/
def MIN (a b : Nat) : Nat := if a < b then a else b

/-- Macro `MAX`. -/
def MAX (a b : Nat) : Nat := if a > b then a else b

/-- The connecting run of `graph_draw`:
`for (ay = lo; ay < hi; ++ay) if (ay < rows) grid[ay * cols + x] = true`.
A store outside the list (undefined in C) leaves it as it is. -/
def draw_run (rows cols x : Nat) (grid : List Bool) (lo hi : Nat) : List Bool :=
  (List.range' lo (hi - lo)).foldl
    (fun gr ay => if ay < rows then gr.set ((ay * cols + x) % 2 ^ 64) true else gr) grid

/-- The state of the column loop of `graph_draw`: `drawn`, `ly` and the
grid. -/
structure DrawState where
  drawn : Bool
  ly : Nat
  grid : List Bool
deriving DecidableEq, Repr

/-- One iteration of the column loop of `graph_draw`, at column `x`. -/
def draw_col (rows cols : Nat) (line : Line) (st : DrawState) (x : Nat) : DrawState :=
  let y := sample_row rows cols line x
  if y < rows then
    if st.drawn then
      ⟨st.drawn, y, draw_run rows cols x st.grid (MIN y st.ly) (MAX y st.ly)⟩
    else
      ⟨true, y, st.grid.set ((y * cols + x) % 2 ^ 64) true⟩
  else st

/-- The body of the line loop of `graph_draw`: one line drawn on a grid. -/
def draw_line (rows cols : Nat) (grid : List Bool) (line : Line) : List Bool :=
  ((List.range cols).foldl (draw_col rows cols line) ⟨false, 0, grid⟩).grid

/-- C `graph_draw`. -/
def graph_draw (graph : Graph) : Graph :=
  { graph with grid := graph.lines.foldl (draw_line graph.rows graph.cols) graph.grid }

/-- C `fprintf` of an unsigned integer with `%zu` or `%u`. -/
def fmt_u (n : Nat) : List Char := (Nat.repr n).toList

/-- The `fprintf` of one cell in `graph_save`: the three bytes of the
colour, each followed by a space. -/
def save_cell (face : Nat) : List Char :=
  fmt_u ((face >>> (8 * 2)) &&& 0xff) ++ [' '] ++
  fmt_u ((face >>> (8 * 1)) &&& 0xff) ++ [' '] ++
  fmt_u ((face >>> (8 * 0)) &&& 0xff) ++ [' ']

/-- The colour of the cell `(y, x)` in `graph_save`; `none` when the read
`grid[y * cols + x]` is outside the grid. -/
def save_face (graph : Graph) (y x : Nat) : Option Nat :=
  (graph.grid[(y * graph.cols + x) % 2 ^ 64]?).map
    (fun b => if b then graph.fore else graph.back)

/-- The inner loop of `graph_save` over the columns of row `y`, appending to
the text written so far. -/
def save_row (graph : Graph) (y : Nat) (out : List Char) : Option (List Char) :=
  (List.range graph.cols).foldlM
    (fun o x => (save_face graph y x).map (fun face => o ++ save_cell face)) out

/-- C `graph_save` once `fopen` has succeeded: the text written to the file;
`none` when a read of the grid is out of bounds. -/
def graph_save (graph : Graph) : Option (List Char) :=
  (List.range graph.rows).foldlM
    (fun o y => (save_row graph y o).map (fun o1 => o1 ++ ['\n']))
    ("P3 ".toList ++ fmt_u graph.cols ++ [' '] ++ fmt_u graph.rows ++ " 255\n".toList)

/-- The invariant of a parsed term: the scale is a `float`, the power a `size_t`. -/
def Term.Ok (t : Term) : Prop := FP.Valid binary32 t.scale ∧ t.power < 2 ^ 64

/-- The sum of the scales of the terms of power 0, accumulated in order in `float`
arithmetic. -/
def const_sum (line : Line) : FP :=
  (line.filter (fun t => t.power = 0)).foldl (fun r t => FP.add binary32 r t.scale) FP.zero

/-- Byte `i` of a colour: bits `8 * i + 7 .. 8 * i`. -/
def channel (face i : Nat) : Nat := face / 2 ^ (8 * i) % 256

/-- The triple `"R G B "` of a colour, as the output format describes it. -/
def ppm_triple (face : Nat) : List Char :=
  fmt_u (channel face 2) ++ [' '] ++ fmt_u (channel face 1) ++ [' '] ++
  fmt_u (channel face 0) ++ [' ']

/-- The colour of the cell `(y, x)`: `fore` when it is marked, else `back`. -/
def cell_face (graph : Graph) (y x : Nat) : Nat :=
  if graph.grid.getD (y * graph.cols + x) false then graph.fore else graph.back

/-- The PPM text as the output format describes it: the header line, then one
line per row holding the triples of its cells. -/
def ppm_text (graph : Graph) : List Char :=
  "P3 ".toList ++ fmt_u graph.cols ++ [' '] ++ fmt_u graph.rows ++ " 255\n".toList ++
  (List.range graph.rows).flatMap (fun y =>
    (List.range graph.cols).flatMap (fun x => ppm_triple (cell_face graph y x)) ++ ['\n'])

/-- The graph of the command line `graph -r 10 -c 10 EXPR` once `EXPR` is parsed to `line`. -/
def graph10 (line : Line) : Graph :=
  ⟨[line], 10, 10, 0x93E0E3, 0x3F3F3F, "output.ppm".toList, calloc 100⟩

/-! ## The stores of the rasteriser -/

/-- Store `true` at each of the given indices, in order. -/
def mark_all (idxs : List Nat) (grid : List Bool) : List Bool :=
  idxs.foldl (fun g i => g.set i true) grid

/-- The index `grid[ay * cols + x]` of a cell, computed in `size_t`. -/
def cell_index (cols : Nat) (c : Nat × Nat) : Nat := (c.1 * cols + c.2) % 2 ^ 64

/-- The values of `ay` at which the connecting run evaluates its check
`ay < rows`, in order. -/
def run_checks (lo hi : Nat) : List Nat := List.range' lo (hi - lo)

/-- The cells `(ay, x)` the connecting run stores to, in order. -/
def run_cells (rows x lo hi : Nat) : List (Nat × Nat) :=
  ((run_checks lo hi).filter (fun ay => decide (ay < rows))).map (fun ay => (ay, x))

/-- The variables `drawn` and `ly` after the iteration at column `x`. -/
def col_next (rows cols : Nat) (line : Line) (st : Bool × Nat) (x : Nat) : Bool × Nat :=
  if sample_row rows cols line x < rows then (true, sample_row rows cols line x) else st

/-- The cells the iteration at column `x` stores to, from the values `st` of
`drawn` and `ly` before it. -/
def col_cells (rows cols : Nat) (line : Line) (st : Bool × Nat) (x : Nat) : List (Nat × Nat) :=
  if sample_row rows cols line x < rows then
    if st.1 then
      run_cells rows x (MIN (sample_row rows cols line x) st.2)
        (MAX (sample_row rows cols line x) st.2)
    else [(sample_row rows cols line x, x)]
  else []

/-- The values of `ay` checked against `rows` in the iteration at column `x`. -/
def col_checks (rows cols : Nat) (line : Line) (st : Bool × Nat) (x : Nat) : List Nat :=
  if sample_row rows cols line x < rows then
    if st.1 then
      run_checks (MIN (sample_row rows cols line x) st.2) (MAX (sample_row rows cols line x) st.2)
    else []
  else []

/-- The cells stored to over a list of columns, from the values `st` of
`drawn` and `ly` before the first of them. -/
def cols_cells (rows cols : Nat) (line : Line) : Bool × Nat → List Nat → List (Nat × Nat)
  | _, [] => []
  | st, x :: xs =>
    col_cells rows cols line st x ++ cols_cells rows cols line (col_next rows cols line st x) xs

/-- The values of `ay` checked against `rows` over a list of columns. -/
def cols_checks (rows cols : Nat) (line : Line) : Bool × Nat → List Nat → List Nat
  | _, [] => []
  | st, x :: xs =>
    col_checks rows cols line st x ++ cols_checks rows cols line (col_next rows cols line st x) xs

/-- The cells `graph_draw` stores to for one line. -/
def line_cells (rows cols : Nat) (line : Line) : List (Nat × Nat) :=
  cols_cells rows cols line (false, 0) (List.range cols)

/-- The values of `ay` that `graph_draw` checks against `rows` for one line. -/
def line_checks (rows cols : Nat) (line : Line) : List Nat :=
  cols_checks rows cols line (false, 0) (List.range cols)

/-- All the cells `graph_draw` stores to. -/
def graph_cells (graph : Graph) : List (Nat × Nat) :=
  graph.lines.flatMap (line_cells graph.rows graph.cols)

/-- All the values of `ay` that `graph_draw` checks against `rows`. -/
def graph_checks (graph : Graph) : List Nat :=
  graph.lines.flatMap (line_checks graph.rows graph.cols)

/-- The marked cells of one line, as the rasteriser is described: cell
`(a, x)` is marked when the sample row `y` of column `x` is in `[0, rows)`
and either no earlier column has its sample row in range and `a = y`, or
`min y ly <= a < max y ly` for the sample row `ly` of the nearest earlier
column whose sample row is in range. -/
def line_marks (rows cols : Nat) (line : Line) (a x : Nat) : Prop :=
  sample_row rows cols line x < rows ∧
  (((∀ x1, x1 < x → ¬ sample_row rows cols line x1 < rows) ∧ a = sample_row rows cols line x) ∨
   (∃ x1, x1 < x ∧ sample_row rows cols line x1 < rows ∧
      (∀ x2, x1 < x2 → x2 < x → ¬ sample_row rows cols line x2 < rows) ∧
      min (sample_row rows cols line x) (sample_row rows cols line x1) ≤ a ∧
      a < max (sample_row rows cols line x) (sample_row rows cols line x1)))

/-- What the variables `drawn` and `ly` record before the iteration at column
`n`: whether an earlier column had its sample row in range, and the sample
row of the nearest such column. -/
def DrawInv (rows cols : Nat) (line : Line) (n : Nat) (st : Bool × Nat) : Prop :=
  (st.1 = false → ∀ x1, x1 < n → ¬ sample_row rows cols line x1 < rows) ∧
  (st.1 = true → ∃ x1, x1 < n ∧ sample_row rows cols line x1 < rows ∧
      (∀ x2, x1 < x2 → x2 < n → ¬ sample_row rows cols line x2 < rows) ∧
      st.2 = sample_row rows cols line x1)

/-- The value `dy - line_solve(line, x - dx)` that `graph_draw` converts to
the row of column `x`. -/
def sample_value (rows cols : Nat) (line : Line) (x : Nat) : FP :=
  FP.sub binary32 (half_float rows)
    (line_solve line (FP.sub binary32 (f32 x) (half_float cols)))

/-- The exact value of a finite datum (`0` for an infinity or NaN). -/
def FP.toRat : FP → ℚ
  | FP.fin s m e => (if s then -1 else 1) * ((m : ℚ) * (2 : ℚ) ^ e)
  | _ => 0

/-- The value `d` lies strictly between `-1` and `rows` (never so for an
infinity or NaN). -/
def row_in_range (d : FP) (rows : Nat) : Prop :=
  d.isFinite = true ∧ -1 < d.toRat ∧ d.toRat < (rows : ℚ)

/-! ## Lemmas and the claims -/

set_option maxRecDepth 100000

theorem bitLenAux_le_iff : ∀ (fuel n k : Nat), n ≤ fuel → (bitLenAux fuel n ≤ k ↔ n < 2 ^ k) := by
  intro fuel
  induction fuel with
  | zero =>
    intro n k hn
    have h0 : n = 0 := by omega
    subst h0
    simp [bitLenAux]
  | succ fuel ih =>
    intro n k hn
    by_cases h0 : n = 0
    · subst h0
      simp [bitLenAux]
    · simp only [bitLenAux, if_neg h0]
      cases k with
      | zero => simp; omega
      | succ k =>
        have h2 : n / 2 ≤ fuel := by omega
        rw [Nat.add_le_add_iff_right, ih (n / 2) k h2, pow_succ]
        omega

theorem bitLen_le_iff (n k : Nat) : bitLen n ≤ k ↔ n < 2 ^ k :=
  bitLenAux_le_iff n n k (Nat.le_refl n)

theorem lt_bitLen_iff (n k : Nat) : k < bitLen n ↔ 2 ^ k ≤ n := by
  have := bitLen_le_iff n k
  omega

theorem bitLen_zero : bitLen 0 = 0 := by
  have := (bitLen_le_iff 0 0).2 (by norm_num)
  omega

theorem lt_two_pow_bitLen (n : Nat) : n < 2 ^ bitLen n := (bitLen_le_iff n _).1 (Nat.le_refl _)

theorem two_pow_bitLen_le (n : Nat) (h : n ≠ 0) : 2 ^ (bitLen n - 1) ≤ n := by
  have hpos : 0 < bitLen n := by
    rw [lt_bitLen_iff]; simpa using Nat.pos_of_ne_zero h
  exact (lt_bitLen_iff n _).1 (by omega)

theorem bitLen_eq_of (n L : Nat) (h1 : 2 ^ L ≤ n) (h2 : n < 2 ^ (L + 1)) : bitLen n = L + 1 := by
  have a := (bitLen_le_iff n (L + 1)).2 h2
  have b := (lt_bitLen_iff n L).2 h1
  omega

theorem bitLen_mul_two_pow (n k : Nat) (h : n ≠ 0) : bitLen (n * 2 ^ k) = bitLen n + k := by
  have hpos : 0 < bitLen n := by
    rw [lt_bitLen_iff]; simpa using Nat.pos_of_ne_zero h
  have e : bitLen n + k = (bitLen n - 1 + k) + 1 := by omega
  rw [e]
  apply bitLen_eq_of
  · rw [pow_add]
    exact Nat.mul_le_mul_right _ (two_pow_bitLen_le n h)
  · have := lt_two_pow_bitLen n
    rw [← e, pow_add]
    exact Nat.mul_lt_mul_of_pos_right this (by positivity)


theorem FP.finish_fin (f : Fmt) (s : Bool) (n : Nat) (e : Int) (hn : n ≠ 0) (he : e ≤ f.emax) :
    FP.finish f s n e = FP.fin s n e := by
  simp [FP.finish, hn, not_lt.mpr he]

theorem FP.round_zero (f : Fmt) (s : Bool) (X : Int) : FP.round f s 0 X = FP.zero := by
  have hp : (0 : Nat) ≠ 2 ^ f.prec := (Nat.two_pow_pos _).ne
  have hh : ∀ k : Nat, ¬ ((0 : Nat) = 2 ^ k) := fun k => (Nat.two_pow_pos _).ne
  simp only [FP.round]
  split
  · simp [FP.finish]
  · simp [FP.finish, hp, hh]

theorem FP.valid_prec_pos (f : Fmt) (s : Bool) (n : Nat) (E : Int) (hn : n ≠ 0)
    (hv : FP.Valid f (FP.fin s n E)) :
    n < 2 ^ f.prec ∧ f.emin ≤ E ∧ E ≤ f.emax ∧ (2 ^ (f.prec - 1) ≤ n ∨ E = f.emin) := by
  simpa [FP.Valid, hn] using hv

theorem FP.round_canon (f : Fmt) (s : Bool) (n : Nat) (E : Int) (k : Nat) (hn : n ≠ 0)
    (hv : FP.Valid f (FP.fin s n E)) :
    FP.round f s (n * 2 ^ k) (E - k) = FP.fin s n E := by
  obtain ⟨h1, h2, h3, h4⟩ := FP.valid_prec_pos f s n E hn hv
  have hL : bitLen n ≤ f.prec := (bitLen_le_iff n _).2 h1
  have hE : max (E - (k : Int) + ((bitLen (n * 2 ^ k) : Nat) : Int) - (f.prec : Int)) f.emin = E := by
    rw [bitLen_mul_two_pow n k hn]
    rcases h4 with h4 | h4
    · have : f.prec - 1 < bitLen n := (lt_bitLen_iff n _).2 h4
      have hb : bitLen n = f.prec := by omega
      rw [hb]; push_cast
      rw [max_eq_left] <;> omega
    · push_cast
      rw [max_eq_right] <;> omega
  simp only [FP.round, hE]
  by_cases hk : k = 0
  · subst hk
    simp [FP.finish_fin f s n E hn h3]
  · have hlt : ¬ (E ≤ E - (k : Int)) := by omega
    have hs : (E - (E - (k : Int))).toNat = k := by omega
    have hpos : 0 < 2 ^ k := Nat.two_pow_pos _
    have hhalf : ¬ ((0 : Nat) = 2 ^ (k - 1)) := (Nat.two_pow_pos _).ne
    simp only [if_neg hlt, hs, Nat.mul_div_cancel _ hpos, Nat.mul_mod_left, Nat.not_lt_zero,
      hhalf, false_and, or_self, if_false, if_neg (Nat.ne_of_lt h1)]
    exact FP.finish_fin f s n E hn h3

theorem FP.valid_zero (f : Fmt) : FP.Valid f FP.zero := by
  simp [FP.Valid, FP.zero]

theorem FP.valid_finish (f : Fmt) (s : Bool) (n : Nat) (e : Int)
    (h : n ≠ 0 → e ≤ f.emax → n < 2 ^ f.prec ∧ f.emin ≤ e ∧ (2 ^ (f.prec - 1) ≤ n ∨ e = f.emin)) :
    FP.Valid f (FP.finish f s n e) := by
  unfold FP.finish
  by_cases hn : n = 0
  · simp [hn, FP.valid_zero]
  · by_cases he : f.emax < e
    · simp [hn, he, FP.Valid]
    · obtain ⟨a, b, c⟩ := h hn (not_lt.mp he)
      simp only [if_neg hn, if_neg he, FP.Valid]
      exact ⟨a, b, not_lt.mp he, c⟩

theorem FP.valid_round_tail (f : Fmt) (hp : 1 ≤ f.prec) (s : Bool) (n : Nat) (E : Int)
    (h1 : n ≤ 2 ^ f.prec) (h2 : f.emin ≤ E) (h3 : 2 ^ (f.prec - 1) ≤ n ∨ E = f.emin) :
    FP.Valid f (if n = 2 ^ f.prec then FP.finish f s (2 ^ (f.prec - 1)) (E + 1)
      else FP.finish f s n E) := by
  split
  · apply FP.valid_finish
    intro _ _
    exact ⟨Nat.pow_lt_pow_right (by norm_num) (by omega), by omega, Or.inl (le_refl _)⟩
  · rename_i hne
    apply FP.valid_finish
    intro _ _
    exact ⟨by omega, h2, h3⟩

theorem FP.round_valid (f : Fmt) (hp : 1 ≤ f.prec) (s : Bool) (N : Nat) (X : Int) :
    FP.Valid f (FP.round f s N X) := by
  by_cases hN : N = 0
  · subst hN; rw [FP.round_zero]; exact FP.valid_zero f
  have hLpos : 0 < bitLen N := by
    rw [lt_bitLen_iff]; simpa using Nat.pos_of_ne_zero hN
  have hNlt := lt_two_pow_bitLen N
  have hNge := two_pow_bitLen_le N hN
  simp only [FP.round]
  generalize hE : max (X + (bitLen N : Int) - (f.prec : Int)) f.emin = E
  have hE1 : X + (bitLen N : Int) - (f.prec : Int) ≤ E := by rw [← hE]; exact le_max_left _ _
  have hE2 : f.emin ≤ E := by rw [← hE]; exact le_max_right _ _
  have hE3 : E = f.emin ∨ E = X + (bitLen N : Int) - (f.prec : Int) := by
    rcases le_total (X + (bitLen N : Int) - (f.prec : Int)) f.emin with h | h
    · left; rw [← hE]; exact max_eq_right h
    · right; rw [← hE]; exact max_eq_left h
  split
  · -- exact: shift left
    rename_i hle
    apply FP.valid_finish
    intro _ _
    have hb : bitLen (N * 2 ^ (X - E).toNat) = bitLen N + (X - E).toNat :=
      bitLen_mul_two_pow N _ hN
    refine ⟨?_, hE2, ?_⟩
    · rw [← bitLen_le_iff, hb]; omega
    · rcases hE3 with h | h
      · exact Or.inr h
      · left
        rw [← lt_bitLen_iff, hb]; omega
  · -- inexact: shift right
    rename_i hlt
    have hs : 0 < (E - X).toNat := by omega
    have hq : N / 2 ^ (E - X).toNat < 2 ^ f.prec := by
      rw [Nat.div_lt_iff_lt_mul (Nat.two_pow_pos _), ← pow_add]
      exact lt_of_lt_of_le hNlt (Nat.pow_le_pow_right (by norm_num) (by omega))
    apply FP.valid_round_tail f hp
    · split <;> omega
    · exact hE2
    · rcases hE3 with h | h
      · exact Or.inr h
      · left
        have hq2 : 2 ^ (f.prec - 1) ≤ N / 2 ^ (E - X).toNat := by
          rw [Nat.le_div_iff_mul_le (Nat.two_pow_pos _), ← pow_add]
          have : f.prec - 1 + (E - X).toNat = bitLen N - 1 := by omega
          rw [this]; exact hNge
        split <;> omega

theorem prec32 : (1 : Nat) ≤ binary32.prec := by decide

theorem FP.valid_add (f : Fmt) (hp : 1 ≤ f.prec) (x y : FP) : FP.Valid f (FP.add f x y) := by
  cases x <;> cases y <;> simp only [FP.add]
  · exact FP.round_valid f hp _ _ _
  all_goals first | trivial | (split <;> trivial)

theorem FP.valid_mul (f : Fmt) (hp : 1 ≤ f.prec) (x y : FP) : FP.Valid f (FP.mul f x y) := by
  cases x <;> cases y <;> simp only [FP.mul]
  · exact FP.round_valid f hp _ _ _
  all_goals first | trivial | (split <;> trivial)

theorem FP.valid_neg (f : Fmt) (x : FP) (h : FP.Valid f x) : FP.Valid f (FP.neg x) := by
  cases x with
  | fin s m e =>
    by_cases hm : m = 0
    · simp [FP.neg, hm, FP.valid_zero]
    · simp only [FP.neg, if_neg hm]
      simpa [FP.Valid, hm] using h
  | inf s => trivial
  | nan => trivial

theorem FP.signed_neg_iff (s : Bool) (n : Nat) (hn : 0 < n) : decide (FP.signed s n < 0) = s := by
  cases s <;> simp [FP.signed]
  omega

theorem FP.signed_natAbs (s : Bool) (n : Nat) : (FP.signed s n).natAbs = n := by
  cases s <;> simp [FP.signed]

theorem FP.signed_zero (s : Bool) : FP.signed s 0 = 0 := by
  cases s <;> simp [FP.signed]

theorem FP.add_zero (f : Fmt) (x : FP) (h : FP.Valid f x) : FP.add f x FP.zero = x := by
  cases x with
  | fin s m e =>
    by_cases hm : m = 0
    · subst hm
      have h2 : s = false ∧ e = 0 := by simpa [FP.Valid] using h
      obtain ⟨rfl, rfl⟩ := h2
      simp [FP.add, FP.zero, FP.signed, FP.round_zero]
    · have hmpos : 0 < m := Nat.pos_of_ne_zero hm
      simp only [FP.add, FP.zero, Nat.zero_mul, FP.signed_zero, Int.add_zero]
      generalize hk : (e - min e 0).toNat = k
      have hp2 : 0 < m * 2 ^ k := Nat.mul_pos hmpos (Nat.two_pow_pos _)
      rw [FP.signed_neg_iff s _ hp2, FP.signed_natAbs]
      have he : min e 0 = e - (k : Int) := by omega
      rw [he]
      exact FP.round_canon f s m e k hm h
  | inf s => simp [FP.add, FP.zero]
  | nan => simp [FP.add]

theorem FP.zero_add (f : Fmt) (x : FP) (h : FP.Valid f x) : FP.add f FP.zero x = x := by
  cases x with
  | fin s m e =>
    by_cases hm : m = 0
    · subst hm
      have h2 : s = false ∧ e = 0 := by simpa [FP.Valid] using h
      obtain ⟨rfl, rfl⟩ := h2
      simp [FP.add, FP.zero, FP.signed, FP.round_zero]
    · have hmpos : 0 < m := Nat.pos_of_ne_zero hm
      simp only [FP.add, FP.zero, Nat.zero_mul, FP.signed_zero, Int.zero_add]
      generalize hk : (e - min 0 e).toNat = k
      have hp2 : 0 < m * 2 ^ k := Nat.mul_pos hmpos (Nat.two_pow_pos _)
      rw [FP.signed_neg_iff s _ hp2, FP.signed_natAbs]
      have he : min 0 e = e - (k : Int) := by omega
      rw [he]
      exact FP.round_canon f s m e k hm h
  | inf s => simp [FP.add, FP.zero]
  | nan => simp [FP.add, FP.zero]

theorem f32_zero : f32 0 = FP.zero := by decide

theorem f32_one : f32 1 = FP.fin false (2 ^ 23) (-23) := by decide

theorem FP.valid_f32 (n : Nat) : FP.Valid binary32 (f32 n) :=
  FP.round_valid binary32 prec32 _ _ _

theorem FP.mul_zero_fin (f : Fmt) (s : Bool) (m : Nat) (e : Int) :
    FP.mul f (FP.fin s m e) FP.zero = FP.zero := by
  simp [FP.mul, FP.zero, FP.round_zero]

theorem FP.mul_one (x : FP) (h : FP.Valid binary32 x) : FP.mul binary32 x (f32 1) = x := by
  rw [f32_one]
  cases x with
  | fin s m e =>
    by_cases hm : m = 0
    · subst hm
      have h2 : s = false ∧ e = 0 := by simpa [FP.Valid] using h
      obtain ⟨rfl, rfl⟩ := h2
      simp [FP.mul, FP.round_zero, FP.zero]
    · simp only [FP.mul, Bool.xor_false]
      have := FP.round_canon binary32 s m e 23 hm h
      simpa [sub_eq_add_neg] using this
  | inf s => simp [FP.mul]
  | nan => simp [FP.mul]

theorem FP.neg_one_mul (x : FP) (h : FP.Valid binary32 x) :
    FP.mul binary32 (FP.neg (f32 1)) x = FP.neg x := by
  have h1 : FP.neg (f32 1) = FP.fin true (2 ^ 23) (-23) := by decide
  rw [h1]
  cases x with
  | fin s m e =>
    by_cases hm : m = 0
    · subst hm
      simp [FP.mul, FP.round_zero, FP.neg]
    · simp only [FP.mul, FP.neg, if_neg hm, Bool.true_xor]
      have hv : FP.Valid binary32 (FP.fin (!s) m e) := by
        simpa [FP.Valid, hm] using h
      have := FP.round_canon binary32 (!s) m e 23 hm hv
      rw [Nat.mul_comm, show (-23 : Int) + e = e - ((23 : Nat) : Int) by omega]
      exact this
  | inf s => simp [FP.mul, FP.neg]
  | nan => simp [FP.mul, FP.neg]

theorem powf_zero_exp (x : FP) : powf x 0 = f32 1 := by simp [powf]

theorem powf_one_exp (x : FP) (h : FP.Valid binary32 x) : powf x 1 = x := by
  cases x with
  | fin s m e =>
    by_cases hm : m = 0
    · subst hm
      have h2 : s = false ∧ e = 0 := by simpa [FP.Valid] using h
      obtain ⟨rfl, rfl⟩ := h2
      simp [powf, FP.round_zero, FP.zero]
    · have := FP.round_canon binary32 s m e 0 hm h
      simpa [powf] using this
  | inf s => simp [powf]
  | nan => simp [powf]

theorem powf_zero_base (k : Nat) (hk : k ≠ 0) : powf FP.zero k = FP.zero := by
  simp [powf, hk, FP.zero, FP.round_zero]

theorem FP.toSizeT_lt (x : FP) : x.toSizeT < 2 ^ 64 := by
  cases x with
  | fin s m e =>
    simp only [FP.toSizeT]
    split
    · split
      · exact Nat.mod_lt _ (by norm_num)
      · norm_num
    · split
      · assumption
      · norm_num
  | inf s => simp only [FP.toSizeT]; split <;> norm_num
  | nan => simp only [FP.toSizeT]; norm_num

theorem FP.round_normal (f : Fmt) (hp : 1 ≤ f.prec) (s : Bool) (N : Nat) (X : Int) (hN : N ≠ 0)
    (hge : f.emin ≤ X + (bitLen N : Int) - (f.prec : Int)) :
    ∃ n, 2 ^ (f.prec - 1) ≤ n ∧ n < 2 ^ f.prec ∧
      (FP.round f s N X = FP.finish f s n (X + (bitLen N : Int) - (f.prec : Int)) ∨
       FP.round f s N X = FP.finish f s n (X + (bitLen N : Int) - (f.prec : Int) + 1)) := by
  have hLpos : 0 < bitLen N := by
    rw [lt_bitLen_iff]; simpa using Nat.pos_of_ne_zero hN
  have hNlt := lt_two_pow_bitLen N
  have hNge := two_pow_bitLen_le N hN
  have hE : max (X + (bitLen N : Int) - (f.prec : Int)) f.emin = X + (bitLen N : Int) - (f.prec : Int) :=
    max_eq_left hge
  simp only [FP.round, hE]
  generalize hEE : X + (bitLen N : Int) - (f.prec : Int) = E
  split
  · rename_i hle
    refine ⟨N * 2 ^ (X - E).toNat, ?_, ?_, Or.inl rfl⟩
    · rw [← lt_bitLen_iff, bitLen_mul_two_pow N _ hN]; omega
    · rw [← bitLen_le_iff, bitLen_mul_two_pow N _ hN]; omega
  · rename_i hlt
    have hq : N / 2 ^ (E - X).toNat < 2 ^ f.prec := by
      rw [Nat.div_lt_iff_lt_mul (Nat.two_pow_pos _), ← pow_add]
      exact lt_of_lt_of_le hNlt (Nat.pow_le_pow_right (by norm_num) (by omega))
    have hq2 : 2 ^ (f.prec - 1) ≤ N / 2 ^ (E - X).toNat := by
      rw [Nat.le_div_iff_mul_le (Nat.two_pow_pos _), ← pow_add]
      have : f.prec - 1 + (E - X).toNat = bitLen N - 1 := by omega
      rw [this]; exact hNge
    have hpw : 2 ^ (f.prec - 1) < 2 ^ f.prec := Nat.pow_lt_pow_right (by norm_num) (by omega)
    split <;> split
    · exact ⟨2 ^ (f.prec - 1), le_refl _, hpw, Or.inr rfl⟩
    · exact ⟨_, by omega, by omega, Or.inl rfl⟩
    · exact ⟨2 ^ (f.prec - 1), le_refl _, hpw, Or.inr rfl⟩
    · exact ⟨_, hq2, hq, Or.inl rfl⟩

theorem f32_truncNat_pos (p : Nat) (h0 : p ≠ 0) (h1 : p < 2 ^ 64) : (f32 p).truncNat ≠ 0 := by
  have hLpos : 0 < bitLen p := by
    rw [lt_bitLen_iff]; simpa using Nat.pos_of_ne_zero h0
  have hL : bitLen p ≤ 64 := (bitLen_le_iff p 64).2 h1
  obtain ⟨n, hn1, hn2, hr⟩ := FP.round_normal binary32 prec32 false p 0 h0
    (by have h3 : binary32.prec = 24 := rfl
        have h4 : binary32.emin = -149 := rfl
        rw [h3, h4]; omega)
  have hn0 : n ≠ 0 := by
    have : 0 < 2 ^ (binary32.prec - 1) := Nat.two_pow_pos _
    omega
  have key : ∀ E : Int, -23 ≤ E → E ≤ 104 → (FP.finish binary32 false n E).truncNat ≠ 0 := by
    intro E hE1 hE2
    rw [FP.finish_fin binary32 false n E hn0 hE2]
    simp only [FP.truncNat]
    split
    · exact Nat.mul_ne_zero hn0 (Nat.two_pow_pos _).ne'
    · have hle : 2 ^ (-E).toNat ≤ n := by
        refine le_trans (Nat.pow_le_pow_right (by norm_num) ?_) hn1
        have h3 : binary32.prec = 24 := rfl
        rw [h3]; omega
      exact (Nat.div_pos hle (Nat.two_pow_pos _)).ne'
  have hprec : binary32.prec = 24 := rfl
  rw [hprec] at hr
  unfold f32 FP.ofNat
  rcases hr with hr | hr <;> rw [hr] <;> apply key <;> omega

theorem FP.valid_roundRat (f : Fmt) (hp : 1 ≤ f.prec) (s : Bool) (a b : Nat) :
    FP.Valid f (FP.roundRat f s a b) := FP.round_valid f hp _ _ _

theorem valid_strtoDec (f : Fmt) (hp : 1 ≤ f.prec) (neg : Bool) (s : List Char) (v : FP × List Char)
    (h : strtoDec f neg s = some v) : FP.Valid f v.1 := by
  simp only [strtoDec] at h
  split_ifs at h
  all_goals first
    | (cases h; done)
    | (obtain rfl := Option.some.inj h
       exact FP.round_valid f hp _ _ _)

theorem valid_strtoHex (f : Fmt) (hp : 1 ≤ f.prec) (neg : Bool) (s : List Char) (v : FP × List Char)
    (h : strtoHex f neg s = some v) : FP.Valid f v.1 := by
  simp only [strtoHex] at h
  split_ifs at h
  all_goals first
    | (cases h; done)
    | (obtain rfl := Option.some.inj h
       exact FP.round_valid f hp _ _ _)

theorem valid_strtoBody (f : Fmt) (hp : 1 ≤ f.prec) (neg : Bool) (s : List Char) (v : FP × List Char)
    (h : strtoBody f neg s = some v) : FP.Valid f v.1 := by
  simp only [strtoBody] at h
  split_ifs at h
  all_goals first
    | (obtain rfl := Option.some.inj h
       trivial)
    | exact valid_strtoDec f hp _ _ _ h
    | skip
  split at h
  · rename_i w hw
    obtain rfl := Option.some.inj h
    exact valid_strtoHex f hp _ _ _ hw
  · exact valid_strtoDec f hp _ _ _ h

theorem valid_strto (f : Fmt) (hp : 1 ≤ f.prec) (s : List Char) : FP.Valid f (strto f s).1 := by
  simp only [strto]
  split
  · rename_i v hv
    exact valid_strtoBody f hp _ _ _ hv
  · exact FP.valid_zero f

theorem valid_parse_scale (expr : List Char) : FP.Valid binary32 (parse_scale expr).1 := by
  simp only [parse_scale]
  split
  · exact valid_strto binary32 prec32 _
  · exact FP.valid_f32 1

theorem parse_power_lt (expr : List Char) : (parse_power expr).1 < 2 ^ 64 := by
  simp only [parse_power]
  split
  · norm_num
  · split
    · exact FP.toSizeT_lt _
    · norm_num

theorem term_parse_ok (term : Term) (expr : List Char) (h : (term_parse term expr).1 = true) :
    (term_parse term expr).2.1.Ok := by
  simp only [term_parse] at h ⊢
  split
  · exact ⟨FP.valid_neg _ _ (valid_parse_scale _), parse_power_lt _⟩
  · split
    · exact ⟨valid_parse_scale _, parse_power_lt _⟩
    · split
      · rename_i h1 h2 h3
        simp [h1, h2, h3] at h
      · exact ⟨valid_parse_scale _, parse_power_lt _⟩

theorem line_parse_loop_ok : ∀ (fuel : Nat) (term : Term) (line : Line) (expr : List Char)
    (r : Line × List Char), line_parse_loop fuel term line expr = some r →
    (∀ t ∈ line, t.Ok) → ∀ t ∈ r.1, t.Ok := by
  intro fuel
  induction fuel with
  | zero => intro term line expr r h; simp [line_parse_loop] at h
  | succ fuel ih =>
    intro term line expr r h hl
    simp only [line_parse_loop] at h
    split at h
    · rename_i t e heq
      apply ih _ _ _ _ h
      intro u hu
      simp only [line_append, List.mem_append, List.mem_singleton] at hu
      rcases hu with hu | hu
      · exact hl u hu
      · have := term_parse_ok term expr (by rw [heq])
        rw [heq] at this
        rw [hu]; exact this
    · rw [Option.some.injEq] at h
      rw [← h]; exact hl

theorem line_parse_ok (fuel : Nat) (expr : List Char) (r : Line × List Char)
    (h : line_parse fuel [] expr = some r) : ∀ t ∈ r.1, t.Ok :=
  line_parse_loop_ok fuel _ [] expr r h (by simp)

theorem line_parse_loop_mono : ∀ (fuel k : Nat) (term : Term) (line : Line) (expr : List Char)
    (r : Line × List Char), line_parse_loop fuel term line expr = some r →
    line_parse_loop (fuel + k) term line expr = some r := by
  intro fuel
  induction fuel with
  | zero => intro k term line expr r h; simp [line_parse_loop] at h
  | succ fuel ih =>
    intro k term line expr r h
    rw [show fuel + 1 + k = (fuel + k) + 1 by omega]
    simp only [line_parse_loop] at h ⊢
    split at h
    · exact ih k _ _ _ _ h
    · exact h

theorem line_parse_mono (fuel k : Nat) (line : Line) (expr : List Char) (r : Line × List Char)
    (h : line_parse fuel line expr = some r) : line_parse (fuel + k) line expr = some r :=
  line_parse_loop_mono fuel k _ line expr r h

theorem line_parse_loop_stuck (e : List Char)
    (h : ∀ term, (term_parse term e).1 = true ∧ (term_parse term e).2.2 = e) :
    ∀ (fuel : Nat) (term : Term) (line : Line), line_parse_loop fuel term line e = none := by
  intro fuel
  induction fuel with
  | zero => intro term line; rfl
  | succ fuel ih =>
    intro term line
    obtain ⟨h1, h2⟩ := h term
    simp only [line_parse_loop]
    split
    · rename_i t e1 heq
      rw [heq] at h2
      simp only at h2
      rw [h2]
      exact ih _ _
    · rename_i t e1 heq
      rw [heq] at h1
      cases h1

theorem line_parse_stuck_after (fuel : Nat) (expr e : List Char) (t : Term)
    (h1 : term_parse ⟨FP.zero, 0⟩ expr = (true, t, e))
    (h2 : ∀ term, (term_parse term e).1 = true ∧ (term_parse term e).2.2 = e) :
    line_parse fuel [] expr = none := by
  cases fuel with
  | zero => rfl
  | succ n =>
    simp only [line_parse, line_parse_loop, h1]
    exact line_parse_loop_stuck e h2 _ _ _

theorem caret_stuck : ∀ term, (term_parse term "^2".toList).1 = true ∧
    (term_parse term "^2".toList).2.2 = "^2".toList := by
  intro term
  exact ⟨rfl, rfl⟩

theorem caret_stuck_long : ∀ term, (term_parse term "^2 - 4x + 1".toList).1 = true ∧
    (term_parse term "^2 - 4x + 1".toList).2.2 = "^2 - 4x + 1".toList := by
  intro term
  exact ⟨rfl, rfl⟩

/-- C1 (counterexample): `line_parse` returns on neither `"x^2"` nor `"2x^2 - 4x + 1"`, whatever
the bound on its loop: after the term that ends in `x` the cursor rests on `^`, which no branch
of `term_parse` consumes, so every further call yields the term (1, 0) and leaves the cursor in
place. -/
theorem C1_counterexample :
    (¬ ∃ fuel r, line_parse fuel [] "x^2".toList = some r) ∧
    (¬ ∃ fuel r, line_parse fuel [] "2x^2 - 4x + 1".toList = some r) := by
  constructor
  · rintro ⟨fuel, r, h⟩
    rw [line_parse_stuck_after fuel "x^2".toList "^2".toList ⟨f32 1, 1⟩ (by decide)
      caret_stuck] at h
    cases h
  · rintro ⟨fuel, r, h⟩
    rw [line_parse_stuck_after fuel "2x^2 - 4x + 1".toList "^2 - 4x + 1".toList ⟨f32 2, 1⟩
      (by decide) caret_stuck_long] at h
    cases h

/-- C1 (amended): with the exponent written directly after `x`, parsing `"x2"` ends (for every
bound of at least 2 iterations) and `line_solve` of the result at 3 is 9; likewise parsing
`"2x2 - 4x + 1"` ends (for every bound of at least 4) and `line_solve` of the result at 2
is 1. -/
theorem C1_parse_solve :
    (∀ k, ∃ line, line_parse (2 + k) [] "x2".toList = some (line, []) ∧
      line_solve line (f32 3) = f32 9) ∧
    (∀ k, ∃ line, line_parse (4 + k) [] "2x2 - 4x + 1".toList = some (line, []) ∧
      line_solve line (f32 2) = f32 1) := by
  refine ⟨?_, ?_⟩
  · intro k
    exact ⟨[⟨f32 1, 2⟩], line_parse_mono 2 k _ _ _ (by decide), by decide⟩
  · intro k
    exact ⟨[⟨f32 2, 2⟩, ⟨FP.neg (f32 4), 1⟩, ⟨f32 1, 0⟩], line_parse_mono 4 k _ _ _ (by decide),
      by decide⟩

theorem line_solve_neg_x (v : FP) (hv : FP.Valid binary32 v) :
    line_solve [⟨FP.neg (f32 1), 1⟩] v = FP.neg v := by
  have h1 : (f32 1).truncNat = 1 := by decide
  simp only [line_solve, List.foldl, term_solve, h1]
  rw [powf_one_exp v hv, FP.neg_one_mul v hv, FP.zero_add _ _ (FP.valid_neg _ _ hv)]

/-- C6: a `-` that no numeral follows gives the scale -1. `line_parse` of `"-x"` ends with the
single term (scale -1, power 1), `line_solve` of that line at every `float` `v` is `-v` (at 5 it
is -5), and `line_parse` of `"-"` ends with the single term (scale -1, power 0). -/
theorem C6_minus_default_scale (v : FP) (hv : FP.Valid binary32 v) (k : Nat) :
    line_parse (2 + k) [] "-x".toList = some ([⟨FP.neg (f32 1), 1⟩], []) ∧
    line_solve [⟨FP.neg (f32 1), 1⟩] v = FP.neg v ∧
    line_solve [⟨FP.neg (f32 1), 1⟩] (f32 5) = FP.neg (f32 5) ∧
    line_parse (2 + k) [] "-".toList = some ([⟨FP.neg (f32 1), 0⟩], []) :=
  ⟨line_parse_mono 2 k _ _ _ (by decide), line_solve_neg_x v hv,
    line_solve_neg_x _ (FP.valid_f32 5), line_parse_mono 2 k _ _ _ (by decide)⟩

/-- C6 (witness): the theorem at `v = 0.5` (the `float` `2 ^ 23 * 2 ^ -24`). -/
theorem C6_witness :
    FP.Valid binary32 (FP.fin false (2 ^ 23) (-24)) ∧
    line_solve [⟨FP.neg (f32 1), 1⟩] (FP.fin false (2 ^ 23) (-24)) = FP.fin true (2 ^ 23) (-24) :=
  ⟨by decide, (C6_minus_default_scale (FP.fin false (2 ^ 23) (-24)) (by decide) 0).2.1⟩


theorem term_solve_zero_const (t : Term) (hv : FP.Valid binary32 t.scale) (hp : t.power = 0) :
    term_solve t (f32 0) = t.scale := by
  have h0 : (f32 0).truncNat = 0 := by decide
  simp only [term_solve, hp, h0, powf_zero_exp]
  exact FP.mul_one _ hv

theorem term_solve_zero_pos (t : Term) (hk : t.power ≠ 0) (hlt : t.power < 2 ^ 64)
    (hf : t.scale.isFinite = true) : term_solve t (f32 0) = FP.zero := by
  simp only [term_solve, f32_zero, powf_zero_base _ (f32_truncNat_pos _ hk hlt)]
  cases hs : t.scale with
  | fin s m e => exact FP.mul_zero_fin _ s m e
  | inf s => rw [hs] at hf; cases hf
  | nan => rw [hs] at hf; cases hf

theorem line_solve_zero_aux : ∀ (line : Line) (r : FP), FP.Valid binary32 r →
    (∀ t ∈ line, t.Ok) → (∀ t ∈ line, t.power ≠ 0 → t.scale.isFinite = true) →
    line.foldl (fun result t => FP.add binary32 result (term_solve t (f32 0))) r =
      (line.filter (fun t => t.power = 0)).foldl (fun r t => FP.add binary32 r t.scale) r := by
  intro line
  induction line with
  | nil => intro r _ _ _; rfl
  | cons t ts ih =>
    intro r hr hok hfin
    have hok1 := hok t (List.mem_cons_self _ _)
    have hok2 : ∀ u ∈ ts, u.Ok := fun u hu => hok u (List.mem_cons_of_mem _ hu)
    have hfin2 : ∀ u ∈ ts, u.power ≠ 0 → u.scale.isFinite = true :=
      fun u hu => hfin u (List.mem_cons_of_mem _ hu)
    by_cases hp : t.power = 0
    · rw [List.filter_cons_of_pos (by simpa using hp)]
      simp only [List.foldl_cons]
      rw [term_solve_zero_const t hok1.1 hp]
      exact ih _ (FP.valid_add _ prec32 _ _) hok2 hfin2
    · rw [List.filter_cons_of_neg (by simpa using hp)]
      simp only [List.foldl_cons]
      rw [term_solve_zero_pos t hp hok1.2 (hfin t (List.mem_cons_self _ _) hp),
        FP.add_zero _ _ hr]
      exact ih r hr hok2 hfin2

/-- C5 (counterexample): `"1e39x"` parses to the single term (scale +infinity, power 1), since
the literal overflows `float`; at 0 `line_solve` gives `inf * 0 = NaN`, while the line has no
term of power 0, whose scales therefore sum to 0. -/
theorem C5_counterexample :
    ∃ line, line_parse 2 [] "1e39x".toList = some (line, []) ∧
      line_solve line (f32 0) ≠ const_sum line :=
  ⟨[⟨FP.inf false, 1⟩], by decide, by decide⟩

/-- C5 (amended): for every expression on which `line_parse` ends, if every parsed term of
power at least 1 has a finite scale, then `line_solve` of the parsed line at 0 is the sum, in
order and in `float` arithmetic, of the scales of the terms of power 0. -/
theorem C5_solve_at_zero (fuel : Nat) (expr : List Char) (line : Line) (rest : List Char)
    (h : line_parse fuel [] expr = some (line, rest))
    (hfin : ∀ t ∈ line, t.power ≠ 0 → t.scale.isFinite = true) :
    line_solve line (f32 0) = const_sum line :=
  line_solve_zero_aux line FP.zero (FP.valid_zero _) (line_parse_ok fuel expr _ h) hfin

/-- C5 (witness): the theorem at `"0.5x2 - 4x + 1.5 - 3"`, whose terms are all finite. -/
theorem C5_witness :
    line_parse 5 [] "0.5x2 - 4x + 1.5 - 3".toList =
      some ([⟨FP.fin false (2 ^ 23) (-24), 2⟩, ⟨FP.neg (f32 4), 1⟩,
        ⟨FP.fin false (3 * 2 ^ 22) (-23), 0⟩, ⟨FP.neg (f32 3), 0⟩], []) ∧
    line_solve [⟨FP.fin false (2 ^ 23) (-24), 2⟩, ⟨FP.neg (f32 4), 1⟩,
        ⟨FP.fin false (3 * 2 ^ 22) (-23), 0⟩, ⟨FP.neg (f32 3), 0⟩] (f32 0) =
      const_sum [⟨FP.fin false (2 ^ 23) (-24), 2⟩, ⟨FP.neg (f32 4), 1⟩,
        ⟨FP.fin false (3 * 2 ^ 22) (-23), 0⟩, ⟨FP.neg (f32 3), 0⟩] :=
  ⟨by decide, C5_solve_at_zero 5 "0.5x2 - 4x + 1.5 - 3".toList _ [] (by decide) (by decide)⟩

/-- C2 (the code at the failing input): on the 10 x 10 all-false grid the line parsed from
`"0"` has sample row 5 at every column, yet `graph_draw` marks the single cell (5, 0): the
connecting run from `MIN(5, 5)` to `MAX(5, 5)` is empty, so the cells (5, 1) .. (5, 9) stay
unmarked. -/
theorem C2_constant_marks_one_cell :
    line_parse 2 [] "0".toList = some ([⟨FP.zero, 0⟩], []) ∧
    graph_args 2 Graph.init
      ["graph".toList, "-r".toList, "10".toList, "-c".toList, "10".toList, "0".toList] =
      Run.ok (graph10 [⟨FP.zero, 0⟩]) ∧
    (graph_draw (graph10 [⟨FP.zero, 0⟩])).grid = (calloc 100).set (5 * 10 + 0) true ∧
    (∀ x, x < 10 → sample_row 10 10 [⟨FP.zero, 0⟩] x = 5) ∧
    (∀ x, x < 10 → x ≠ 0 → (graph_draw (graph10 [⟨FP.zero, 0⟩])).grid[5 * 10 + x]? = some false) := by
  decide

/-- C3 (the code at the failing input): for the line parsed from `"0"` on the 10 x 10 all-false
grid, column 1 has its sample row 5 inside `[0, rows)`, and after `graph_draw` no cell of
column 1 is marked. -/
theorem C3_empty_column :
    sample_row 10 10 [⟨FP.zero, 0⟩] 1 < 10 ∧
    ∀ y, y < 10 → (graph_draw (graph10 [⟨FP.zero, 0⟩])).grid[y * 10 + 1]? = some false := by
  decide

/-- C4 (the code at the failing input): `graph -f #FF0000` returns with `fore` still
`0x93E0E3` and with `back` set to `0xFF0000`: the `-f` branch stores into `graph->back`. -/
theorem C4_fore_flag_sets_back :
    ∃ g, graph_args 0 Graph.init ["graph".toList, "-f".toList, "#FF0000".toList] = Run.ok g ∧
      g.fore = 0x93E0E3 ∧ g.back = 0xFF0000 :=
  ⟨_, rfl, rfl, rfl⟩

theorem draw_cols_out_of_range (rows cols : Nat) (line : Line) :
    ∀ (xs : List Nat) (st : DrawState),
      (∀ x ∈ xs, ¬ sample_row rows cols line x < rows) →
      xs.foldl (draw_col rows cols line) st = st := by
  intro xs
  induction xs with
  | nil => intro st _; rfl
  | cons x xs ih =>
    intro st h
    have hx := h x (List.mem_cons_self _ _)
    rw [List.foldl_cons]
    have hstep : draw_col rows cols line st x = st := by
      simp only [draw_col, if_neg hx]
    rw [hstep]
    exact ih st (fun y hy => h y (List.mem_cons_of_mem _ hy))

theorem draw_line_out_of_range (rows cols : Nat) (grid : List Bool) (line : Line)
    (h : ∀ x, x < cols → ¬ sample_row rows cols line x < rows) :
    draw_line rows cols grid line = grid := by
  unfold draw_line
  rw [draw_cols_out_of_range rows cols line (List.range cols) _
    (fun x hx => h x (List.mem_range.mp hx))]

theorem draw_lines_out_of_range (rows cols : Nat) :
    ∀ (lines : List Line) (grid : List Bool),
      (∀ line ∈ lines, ∀ x, x < cols → ¬ sample_row rows cols line x < rows) →
      lines.foldl (draw_line rows cols) grid = grid := by
  intro lines
  induction lines with
  | nil => intro grid _; rfl
  | cons l ls ih =>
    intro grid h
    rw [List.foldl_cons, draw_line_out_of_range rows cols grid l (h l (List.mem_cons_self _ _))]
    exact ih grid (fun m hm => h m (List.mem_cons_of_mem _ hm))

/-- C7: for every graph whose grid is all false and whose lines have, at every column
`x < cols`, a sample row outside `[0, rows)`, `graph_draw` leaves every cell false (it
leaves the grid as it was). -/
theorem C7_out_of_range_draws_nothing (graph : Graph)
    (hgrid : ∀ b ∈ graph.grid, b = false)
    (hout : ∀ line ∈ graph.lines, ∀ x, x < graph.cols →
      ¬ sample_row graph.rows graph.cols line x < graph.rows) :
    (graph_draw graph).grid = graph.grid ∧ ∀ b ∈ (graph_draw graph).grid, b = false := by
  have h : (graph_draw graph).grid = graph.grid :=
    draw_lines_out_of_range graph.rows graph.cols graph.lines graph.grid hout
  exact ⟨h, by rw [h]; exact hgrid⟩

/-- C7 (witness): the constant 100 on the 10 x 10 grid: the line parsed from `"100"` has every
sample row out of range, and the grid stays all false. -/
theorem C7_witness :
    line_parse 2 [] "100".toList = some ([⟨f32 100, 0⟩], []) ∧
    (∀ x, x < 10 → ¬ sample_row 10 10 [⟨f32 100, 0⟩] x < 10) ∧
    ∀ b ∈ (graph_draw (graph10 [⟨f32 100, 0⟩])).grid, b = false :=
  ⟨by decide, by decide,
    (C7_out_of_range_draws_nothing (graph10 [⟨f32 100, 0⟩]) (by decide) (by decide)).2⟩

theorem save_cell_eq (face : Nat) : save_cell face = ppm_triple face := by
  have h255 : (0xff : Nat) = 2 ^ 8 - 1 := by norm_num
  simp only [save_cell, ppm_triple, channel, Nat.shiftRight_eq_div_pow, h255,
    Nat.and_pow_two_sub_one_eq_mod]

theorem cell_index_lt (rows cols y x : Nat) (hy : y < rows) (hx : x < cols) :
    y * cols + x < rows * cols := by
  have h1 : (y + 1) * cols ≤ rows * cols := Nat.mul_le_mul_right _ hy
  have h2 : (y + 1) * cols = y * cols + cols := by ring
  omega

theorem save_face_eq (graph : Graph) (y x : Nat) (hy : y < graph.rows) (hx : x < graph.cols)
    (hlen : graph.grid.length = graph.rows * graph.cols)
    (hsz : graph.rows * graph.cols < 2 ^ 64) :
    save_face graph y x = some (cell_face graph y x) := by
  have hi := cell_index_lt graph.rows graph.cols y x hy hx
  have hmod : (y * graph.cols + x) % 2 ^ 64 = y * graph.cols + x :=
    Nat.mod_eq_of_lt (lt_trans hi hsz)
  have hin : y * graph.cols + x < graph.grid.length := by rw [hlen]; exact hi
  simp only [save_face, cell_face, hmod, List.getElem?_eq_getElem hin, Option.map_some',
    List.getD_eq_getElem?_getD, Option.getD_some]

theorem save_row_cols (graph : Graph) (y : Nat) (hy : y < graph.rows)
    (hlen : graph.grid.length = graph.rows * graph.cols)
    (hsz : graph.rows * graph.cols < 2 ^ 64) :
    ∀ (xs : List Nat) (out : List Char), (∀ x ∈ xs, x < graph.cols) →
      xs.foldlM (fun o x => (save_face graph y x).map (fun face => o ++ save_cell face)) out =
        some (out ++ xs.flatMap (fun x => ppm_triple (cell_face graph y x))) := by
  intro xs
  induction xs with
  | nil => intro out _; simp
  | cons x xs ih =>
    intro out h
    rw [List.foldlM_cons, save_face_eq graph y x hy (h x (List.mem_cons_self _ _)) hlen hsz]
    simp only [Option.map_some', Option.bind_eq_bind, Option.some_bind]
    rw [ih _ (fun z hz => h z (List.mem_cons_of_mem _ hz)), save_cell_eq,
      List.flatMap_cons, List.append_assoc]

theorem save_row_eq (graph : Graph) (y : Nat) (out : List Char) (hy : y < graph.rows)
    (hlen : graph.grid.length = graph.rows * graph.cols)
    (hsz : graph.rows * graph.cols < 2 ^ 64) :
    save_row graph y out =
      some (out ++ (List.range graph.cols).flatMap (fun x => ppm_triple (cell_face graph y x))) :=
  save_row_cols graph y hy hlen hsz _ out (fun _ hx => List.mem_range.mp hx)

theorem save_rows (graph : Graph)
    (hlen : graph.grid.length = graph.rows * graph.cols)
    (hsz : graph.rows * graph.cols < 2 ^ 64) :
    ∀ (ys : List Nat) (out : List Char), (∀ y ∈ ys, y < graph.rows) →
      ys.foldlM (fun o y => (save_row graph y o).map (fun o1 => o1 ++ ['\n'])) out =
        some (out ++ ys.flatMap (fun y =>
          (List.range graph.cols).flatMap (fun x => ppm_triple (cell_face graph y x)) ++ ['\n'])) := by
  intro ys
  induction ys with
  | nil => intro out _; simp
  | cons y ys ih =>
    intro out h
    rw [List.foldlM_cons, save_row_eq graph y out (h y (List.mem_cons_self _ _)) hlen hsz]
    simp only [Option.map_some', Option.bind_eq_bind, Option.some_bind]
    rw [ih _ (fun z hz => h z (List.mem_cons_of_mem _ hz)), List.flatMap_cons]
    simp only [List.append_assoc]

/-- C8: for every graph whose grid has `rows * cols` cells, the text `graph_save` writes is the
header line `P3 <cols> <rows> 255` followed by `rows` lines, each holding the `cols` triples
`R G B ` of its cells, the triple of cell (y, x) being the three bytes (bits 23-16, 15-8, 7-0)
of `fore` when the cell is marked and of `back` otherwise; every channel is at most 255; and for
the 2 x 2 grid with one marked cell, `fore = 0xFFFFFF` and `back = 0`, the marked cell's triple
is `255 255 255` and the others are `0 0 0`, wherever the marked cell is. -/
theorem C8_ppm_text (graph : Graph)
    (hlen : graph.grid.length = graph.rows * graph.cols)
    (hsz : graph.rows * graph.cols < 2 ^ 64) :
    graph_save graph = some (ppm_text graph) ∧
    (∀ face i, channel face i ≤ 255) ∧
    (∀ y, y < 2 → ∀ x, x < 2 →
      graph_save ⟨[], 2, 2, 0xFFFFFF, 0x000000, [], (calloc 4).set (y * 2 + x) true⟩ =
        some ("P3 2 2 255\n".toList ++
          (List.range 2).flatMap (fun b =>
            (List.range 2).flatMap (fun a =>
              if b = y ∧ a = x then "255 255 255 ".toList else "0 0 0 ".toList) ++ ['\n']))) := by
  refine ⟨?_, ?_, by decide⟩
  · unfold graph_save ppm_text
    exact save_rows graph hlen hsz _ _ (fun _ hy => List.mem_range.mp hy)
  · intro face i
    have : channel face i < 256 := Nat.mod_lt _ (by norm_num)
    omega

/-- C8 (witness): the theorem at the 2 x 2 grid whose cell (0, 1) is marked. -/
theorem C8_witness :
    graph_save ⟨[], 2, 2, 0xFFFFFF, 0x000000, [], [false, true, false, false]⟩ =
      some "P3 2 2 255\n0 0 0 255 255 255 \n0 0 0 0 0 0 \n".toList :=
  (C8_ppm_text ⟨[], 2, 2, 0xFFFFFF, 0x000000, [], [false, true, false, false]⟩
    (by decide) (by decide)).1

theorem takeWhile_peek_neg (p : Char → Bool) (t : List Char) (h : p (peek t) = false) :
    t.takeWhile p = [] := by
  cases t with
  | nil => rfl
  | cons c r =>
    have hc : p c = false := h
    simp [List.takeWhile_cons, hc]

theorem dropWhile_peek_neg (p : Char → Bool) (t : List Char) (h : p (peek t) = false) :
    t.dropWhile p = t := by
  cases t with
  | nil => rfl
  | cons c r =>
    have hc : p c = false := h
    simp [List.dropWhile_cons, hc]

theorem isdigit_not_space (c : Char) (h : isdigit c = true) : isspace c = false := by
  simp only [isdigit, isspace, Bool.and_eq_true, Bool.or_eq_false_iff, decide_eq_true_eq,
    decide_eq_false_iff_not, Bool.and_eq_false_iff] at *
  omega

theorem isdigit_not_sign (c : Char) (h : isdigit c = true) : c ≠ '-' ∧ c ≠ '+' := by
  constructor <;> (intro hc; rw [hc] at h; exact absurd h (by decide))

theorem atoi_wrap (v : Nat) (hv : v < 2 ^ 31) :
    ((((min v (2 ^ 63 - 1) : Nat) : Int) + 2 ^ 31) % 2 ^ 32 - 2 ^ 31) % 2 ^ 64 = (v : Int) := by
  have h1 : min v (2 ^ 63 - 1) = v := by omega
  rw [h1]
  omega

theorem atoi_numeral (w sg ds t : List Char) (hw : ∀ c ∈ w, isspace c = true)
    (hsg : sg = [] ∨ sg = ['+']) (hds : ∀ c ∈ ds, isdigit c = true)
    (ht : isdigit (peek t) = false)
    (hc : sg = [] → ds = [] → isspace (peek t) = false ∧ peek t ≠ '-' ∧ peek t ≠ '+')
    (hv : decVal ds < 2 ^ 31) :
    atoi_size_t (w ++ (sg ++ (ds ++ t))) = decVal ds := by
  have htake : (ds ++ t).takeWhile isdigit = ds := by
    rw [List.takeWhile_append_of_pos hds, takeWhile_peek_neg isdigit t ht, List.append_nil]
  have hfin : ((((min (decVal ds) (2 ^ 63 - 1) : Nat) : Int) + 2 ^ 31) % 2 ^ 32 - 2 ^ 31) % 2 ^ 64
      = (decVal ds : Int) := atoi_wrap _ hv
  rcases hsg with rfl | rfl
  · have hpk : isspace (peek (ds ++ t)) = false ∧ peek (ds ++ t) ≠ '-' ∧ peek (ds ++ t) ≠ '+' := by
      cases ds with
      | nil => exact hc rfl rfl
      | cons c r =>
        have hcd : isdigit c = true := hds c (List.mem_cons_self _ _)
        exact ⟨isdigit_not_space c hcd, isdigit_not_sign c hcd⟩
    obtain ⟨h1, h2, h3⟩ := hpk
    simp only [atoi_size_t, List.nil_append, List.dropWhile_append_of_pos hw,
      dropWhile_peek_neg isspace _ h1, h2, h3, or_self, if_false, htake]
    rw [hfin]
    simp
  · have hd : List.dropWhile isspace ('+' :: (ds ++ t)) = '+' :: (ds ++ t) :=
      dropWhile_peek_neg isspace _ (by show isspace '+' = false; decide)
    have h2 : peek ('+' :: (ds ++ t)) = '+' := rfl
    have h3 : ¬ (('+' : Char) = '-') := by decide
    simp only [atoi_size_t, List.dropWhile_append_of_pos hw, List.singleton_append, hd, h2, h3,
      or_true, if_true, if_false, List.drop_succ_cons, List.drop_zero, htake]
    rw [hfin]
    simp

theorem graph_args_rows (fuel : Nat) (prog s : List Char) :
    graph_args fuel Graph.init [prog, "-r".toList, s] =
      if atoi_size_t s = 0 then Run.exit 1
      else Run.ok ⟨[], atoi_size_t s, 100, 0x93E0E3, 0x3F3F3F, "output.ppm".toList,
        calloc (atoi_size_t s * 100 % 2 ^ 64)⟩ := by
  by_cases h : atoi_size_t s = 0
  · simp [graph_args, graph_args_loop, h]
  · simp [graph_args, graph_args_loop, h, Graph.init]

theorem graph_args_cols (fuel : Nat) (prog s : List Char) :
    graph_args fuel Graph.init [prog, "-c".toList, s] =
      if atoi_size_t s = 0 then Run.exit 1
      else Run.ok ⟨[], 100, atoi_size_t s, 0x93E0E3, 0x3F3F3F, "output.ppm".toList,
        calloc (100 * atoi_size_t s % 2 ^ 64)⟩ := by
  by_cases h : atoi_size_t s = 0
  · simp [graph_args, graph_args_loop, h]
  · simp [graph_args, graph_args_loop, h, Graph.init]

/-- C9 (counterexample): with `-r 12abc` (and with `-c 12abc`) `graph_args` does not exit: it
returns with 12 rows (columns), `atoi` reading the leading numeral and ignoring the rest. -/
theorem C9_counterexample :
    graph_args 0 Graph.init ["graph".toList, "-r".toList, "12abc".toList] =
      Run.ok ⟨[], 12, 100, 0x93E0E3, 0x3F3F3F, "output.ppm".toList, calloc 1200⟩ ∧
    graph_args 0 Graph.init ["graph".toList, "-c".toList, "12abc".toList] =
      Run.ok ⟨[], 100, 12, 0x93E0E3, 0x3F3F3F, "output.ppm".toList, calloc 1200⟩ := by
  have h : atoi_size_t "12abc".toList = 12 := by decide
  rw [graph_args_rows, graph_args_cols, h]
  exact ⟨rfl, rfl⟩

/-- C9 (amended): let the value of `-r` (likewise of `-c`) consist of optional white space `w`,
an optional `+`, a possibly empty string `ds` of decimal digits of value `n < 2 ^ 31`, and a
rest `t` that does not start with a digit (when there is neither sign nor digit, `t` starts
with neither white space nor a sign, so that `w` is all the leading white space). If `n` is 0,
that is if the value is non-numeric or its numeral is zero, `graph_args` exits with status 1;
otherwise it returns with `rows` (`cols`) equal to `n`, the rest being ignored. -/
theorem C9_rows_cols_value (fuel : Nat) (prog w sg ds t : List Char)
    (hw : ∀ c ∈ w, isspace c = true) (hsg : sg = [] ∨ sg = ['+'])
    (hds : ∀ c ∈ ds, isdigit c = true) (ht : isdigit (peek t) = false)
    (hc : sg = [] → ds = [] → isspace (peek t) = false ∧ peek t ≠ '-' ∧ peek t ≠ '+')
    (hlt : decVal ds < 2 ^ 31) :
    graph_args fuel Graph.init [prog, "-r".toList, w ++ (sg ++ (ds ++ t))] =
      (if decVal ds = 0 then Run.exit 1
       else Run.ok ⟨[], decVal ds, 100, 0x93E0E3, 0x3F3F3F, "output.ppm".toList,
         calloc (decVal ds * 100)⟩) ∧
    graph_args fuel Graph.init [prog, "-c".toList, w ++ (sg ++ (ds ++ t))] =
      (if decVal ds = 0 then Run.exit 1
       else Run.ok ⟨[], 100, decVal ds, 0x93E0E3, 0x3F3F3F, "output.ppm".toList,
         calloc (100 * decVal ds)⟩) := by
  have ha := atoi_numeral w sg ds t hw hsg hds ht hc hlt
  have hm1 : decVal ds * 100 % 2 ^ 64 = decVal ds * 100 := Nat.mod_eq_of_lt (by omega)
  have hm2 : 100 * decVal ds % 2 ^ 64 = 100 * decVal ds := Nat.mod_eq_of_lt (by omega)
  constructor
  · rw [graph_args_rows, ha, hm1]
  · rw [graph_args_cols, ha, hm2]

/-- C9 (witness): the theorem at the value `" +007px"`, read as 7. -/
theorem C9_witness :
    (∀ c ∈ " ".toList, isspace c = true) ∧ (∀ c ∈ "007".toList, isdigit c = true) ∧
    isdigit (peek "px".toList) = false ∧ decVal "007".toList = 7 ∧
    graph_args 0 Graph.init ["graph".toList, "-r".toList, " +007px".toList] =
      Run.ok ⟨[], 7, 100, 0x93E0E3, 0x3F3F3F, "output.ppm".toList, calloc 700⟩ :=
  ⟨by decide, by decide, by decide, by decide,
    (C9_rows_cols_value 0 "graph".toList " ".toList "+".toList "007".toList "px".toList
      (by decide) (by decide) (by decide) (by decide) (by decide) (by decide)).1⟩

/-- C10 (the code at the failing input): `graph -r -5` does not exit. `graph_args` returns with
`rows = 2 ^ 64 - 5`, the `int` -5 converted to `size_t`, and the size asked of `calloc`,
`rows * cols` reduced modulo `2 ^ 64`, is `2 ^ 64 - 500`, which is not `rows * cols`. -/
theorem C10_negative_rows :
    ∃ g, graph_args 0 Graph.init ["graph".toList, "-r".toList, "-5".toList] = Run.ok g ∧
      g.rows = 2 ^ 64 - 5 ∧ g.cols = 100 ∧ g.grid.length = 2 ^ 64 - 500 ∧
      g.grid.length ≠ g.rows * g.cols := by
  have h : atoi_size_t "-5".toList = 2 ^ 64 - 5 := by decide
  refine ⟨⟨[], 2 ^ 64 - 5, 100, 0x93E0E3, 0x3F3F3F, "output.ppm".toList,
    calloc ((2 ^ 64 - 5) * 100 % 2 ^ 64)⟩, ?_, rfl, rfl, ?_, ?_⟩
  · rw [graph_args_rows, h, if_neg (by norm_num)]
  · simp only [calloc, List.length_replicate]
    norm_num
  · simp only [calloc, List.length_replicate]
    norm_num

theorem mark_all_append (a b : List Nat) (grid : List Bool) :
    mark_all (a ++ b) grid = mark_all b (mark_all a grid) := by
  simp [mark_all, List.foldl_append]

theorem mark_all_length : ∀ (idxs : List Nat) (grid : List Bool),
    (mark_all idxs grid).length = grid.length := by
  intro idxs
  induction idxs with
  | nil => intro grid; rfl
  | cons i is ih =>
    intro grid
    show (mark_all is (grid.set i true)).length = grid.length
    rw [ih, List.length_set]

theorem mark_all_getElem? : ∀ (idxs : List Nat) (grid : List Bool) (j : Nat),
    (mark_all idxs grid)[j]? = (grid[j]?).map (fun b => b || decide (j ∈ idxs)) := by
  intro idxs
  induction idxs with
  | nil => intro grid j; simp [mark_all]
  | cons i is ih =>
    intro grid j
    show (mark_all is (grid.set i true))[j]? = _
    rw [ih, List.getElem?_set]
    by_cases hij : i = j
    · subst hij
      by_cases hlt : i < grid.length
      · simp [hlt, List.getElem?_eq_getElem hlt]
      · have : grid[i]? = none := List.getElem?_eq_none (by omega)
        simp [hlt, this]
    · have hji : ¬ j = i := fun h => hij h.symm
      cases h : grid[j]? <;> simp [hij, hji, h]

theorem draw_run_eq (rows cols x : Nat) (grid : List Bool) (lo hi : Nat) :
    draw_run rows cols x grid lo hi = mark_all ((run_cells rows x lo hi).map (cell_index cols)) grid := by
  unfold draw_run run_cells run_checks mark_all
  generalize List.range' lo (hi - lo) = l
  induction l generalizing grid with
  | nil => rfl
  | cons a l ih =>
    rw [List.foldl_cons, ih]
    by_cases h : a < rows
    · simp [h, List.filter_cons, cell_index]
    · simp [h, List.filter_cons]

theorem draw_col_eq (rows cols : Nat) (line : Line) (st : DrawState) (x : Nat) :
    draw_col rows cols line st x =
      ⟨(col_next rows cols line (st.drawn, st.ly) x).1, (col_next rows cols line (st.drawn, st.ly) x).2,
        mark_all ((col_cells rows cols line (st.drawn, st.ly) x).map (cell_index cols)) st.grid⟩ := by
  unfold draw_col col_next col_cells
  by_cases h : sample_row rows cols line x < rows
  · by_cases hd : st.drawn = true
    · simp [h, hd, draw_run_eq]
    · simp [h, hd, mark_all, cell_index]
  · simp [h, mark_all]

theorem draw_cols_eq (rows cols : Nat) (line : Line) :
    ∀ (xs : List Nat) (st : DrawState),
      (xs.foldl (draw_col rows cols line) st).grid =
        mark_all ((cols_cells rows cols line (st.drawn, st.ly) xs).map (cell_index cols)) st.grid := by
  intro xs
  induction xs with
  | nil => intro st; rfl
  | cons x xs ih =>
    intro st
    rw [List.foldl_cons, ih, draw_col_eq]
    simp only [cols_cells, List.map_append, mark_all_append]

theorem draw_line_eq (rows cols : Nat) (grid : List Bool) (line : Line) :
    draw_line rows cols grid line =
      mark_all ((line_cells rows cols line).map (cell_index cols)) grid :=
  draw_cols_eq rows cols line (List.range cols) ⟨false, 0, grid⟩

theorem draw_lines_eq (rows cols : Nat) : ∀ (lines : List Line) (grid : List Bool),
    lines.foldl (draw_line rows cols) grid =
      mark_all ((lines.flatMap (line_cells rows cols)).map (cell_index cols)) grid := by
  intro lines
  induction lines with
  | nil => intro grid; rfl
  | cons l ls ih =>
    intro grid
    rw [List.foldl_cons, ih, draw_line_eq, List.flatMap_cons, List.map_append, mark_all_append]

theorem graph_draw_eq (graph : Graph) :
    (graph_draw graph).grid =
      mark_all ((graph_cells graph).map (cell_index graph.cols)) graph.grid :=
  draw_lines_eq graph.rows graph.cols graph.lines graph.grid

theorem mark_all_true_iff (idxs : List Nat) (grid : List Bool) (j : Nat) :
    (mark_all idxs grid)[j]? = some true ↔
      grid[j]? = some true ∨ (j ∈ idxs ∧ j < grid.length) := by
  rw [mark_all_getElem?]
  by_cases hlt : j < grid.length
  · rw [List.getElem?_eq_getElem hlt]
    by_cases hm : j ∈ idxs
    · simp [hm, hlt]
    · simp [hm]
  · have : grid[j]? = none := List.getElem?_eq_none (by omega)
    simp [this, hlt]

theorem mark_all_congr (a b : List Nat) (grid : List Bool) (h : ∀ j, j ∈ a ↔ j ∈ b) :
    mark_all a grid = mark_all b grid := by
  apply List.ext_getElem?
  intro j
  rw [mark_all_getElem?, mark_all_getElem?]
  simp only [h j]

theorem mark_all_idem (idxs : List Nat) (grid : List Bool) :
    mark_all idxs (mark_all idxs grid) = mark_all idxs grid := by
  apply List.ext_getElem?
  intro j
  rw [mark_all_getElem?, mark_all_getElem?]
  cases grid[j]? <;> simp

theorem calloc_getElem? (n j : Nat) : (calloc n)[j]? = some true ↔ False := by
  simp only [calloc, List.getElem?_replicate]
  split <;> simp

theorem graph_cells_draw (graph : Graph) : graph_cells (graph_draw graph) = graph_cells graph := rfl

/-- C12: `graph_draw` is idempotent: for every graph, whatever its lines and the contents of its
grid, a second run of `graph_draw` leaves the graph, and so the grid, as the first run left
it. -/
theorem C12_draw_idempotent (graph : Graph) :
    graph_draw (graph_draw graph) = graph_draw graph ∧
    (graph_draw (graph_draw graph)).grid = (graph_draw graph).grid := by
  have h : (graph_draw (graph_draw graph)).grid = (graph_draw graph).grid := by
    rw [graph_draw_eq (graph_draw graph), graph_cells_draw]
    show mark_all _ (graph_draw graph).grid = _
    rw [graph_draw_eq graph]
    exact mark_all_idem _ _
  refine ⟨?_, h⟩
  have e : ∀ g : Graph, graph_draw g = { g with grid := (graph_draw g).grid } := fun _ => rfl
  rw [e (graph_draw graph), h]

theorem mem_graph_cells_index (graph : Graph) (j : Nat) :
    j ∈ (graph_cells graph).map (cell_index graph.cols) ↔
      ∃ line ∈ graph.lines, j ∈ (line_cells graph.rows graph.cols line).map (cell_index graph.cols) := by
  simp only [graph_cells, List.mem_map, List.mem_flatMap]
  constructor
  · rintro ⟨c, ⟨line, hl, hc⟩, rfl⟩
    exact ⟨line, hl, c, hc, rfl⟩
  · rintro ⟨line, hl, c, hc, rfl⟩
    exact ⟨c, ⟨line, hl, hc⟩, rfl⟩

theorem draw_line_alone (rows cols n : Nat) (line : Line) (j : Nat) :
    (draw_line rows cols (calloc n) line)[j]? = some true ↔
      (j ∈ (line_cells rows cols line).map (cell_index cols) ∧ j < n) := by
  rw [draw_line_eq, mark_all_true_iff, calloc_getElem?, false_or]
  simp only [calloc, List.length_replicate]

/-- C17: `graph_draw` never clears a cell, and its result is the cell-wise OR of the initial grid
with the marks each line produces on its own (on an all-false grid of the same size): every cell
that was true before is true after, a cell is true after exactly when it was true before or some
line on its own marks it, and the final grid is the same for every permutation of the lines. -/
theorem C17_draw_is_union (graph : Graph) (lines : List Line) (hperm : lines.Perm graph.lines) :
    (graph_draw { graph with lines := lines }).grid = (graph_draw graph).grid ∧
    (graph_draw graph).grid.length = graph.grid.length ∧
    (∀ j : Nat, graph.grid[j]? = some true → (graph_draw graph).grid[j]? = some true) ∧
    (∀ j : Nat, (graph_draw graph).grid[j]? = some true ↔
      (graph.grid[j]? = some true ∨
        ∃ line ∈ graph.lines,
          (draw_line graph.rows graph.cols (calloc graph.grid.length) line)[j]? = some true)) := by
  have hiff : ∀ j : Nat, (graph_draw graph).grid[j]? = some true ↔
      (graph.grid[j]? = some true ∨
        ∃ line ∈ graph.lines,
          (draw_line graph.rows graph.cols (calloc graph.grid.length) line)[j]? = some true) := by
    intro j
    rw [graph_draw_eq, mark_all_true_iff, mem_graph_cells_index]
    simp only [draw_line_alone graph.rows graph.cols graph.grid.length]
    constructor
    · rintro (h | ⟨⟨line, hl, hj⟩, hlt⟩)
      · exact Or.inl h
      · exact Or.inr ⟨line, hl, hj, hlt⟩
    · rintro (h | ⟨line, hl, hj, hlt⟩)
      · exact Or.inl h
      · exact Or.inr ⟨⟨line, hl, hj⟩, hlt⟩
  refine ⟨?_, ?_, ?_, hiff⟩
  · rw [graph_draw_eq, graph_draw_eq]
    apply mark_all_congr
    intro j
    have h1 := mem_graph_cells_index { graph with lines := lines } j
    have h2 := mem_graph_cells_index graph j
    refine Iff.trans h1 (Iff.trans ?_ h2.symm)
    constructor
    · rintro ⟨line, hl, hj⟩
      exact ⟨line, hperm.mem_iff.mp hl, hj⟩
    · rintro ⟨line, hl, hj⟩
      exact ⟨line, hperm.mem_iff.mpr hl, hj⟩
  · rw [graph_draw_eq, mark_all_length]
  · intro j hj
    exact (hiff j).mpr (Or.inl hj)

/-- C17 (witness): the theorem at the 4 x 4 all-false grid with the lines `x` and `0` in both
orders. -/
theorem C17_witness :
    (graph_draw ⟨[[⟨FP.zero, 0⟩], [⟨f32 1, 1⟩]], 4, 4, 0, 0, [], calloc 16⟩).grid =
      (graph_draw ⟨[[⟨f32 1, 1⟩], [⟨FP.zero, 0⟩]], 4, 4, 0, 0, [], calloc 16⟩).grid :=
  (C17_draw_is_union ⟨[[⟨f32 1, 1⟩], [⟨FP.zero, 0⟩]], 4, 4, 0, 0, [], calloc 16⟩
    [[⟨FP.zero, 0⟩], [⟨f32 1, 1⟩]] (List.Perm.swap _ _ [])).1

theorem MIN_le_left (a b : Nat) : MIN a b ≤ a := by
  unfold MIN; split <;> omega

theorem MAX_lt (a b n : Nat) (ha : a < n) (hb : b < n) : MAX a b < n := by
  unfold MAX; split <;> omega

theorem mem_run_checks (lo hi ay : Nat) : ay ∈ run_checks lo hi ↔ lo ≤ ay ∧ ay < hi := by
  simp only [run_checks, List.mem_range'_1]
  omega

theorem mem_run_cells (rows x lo hi : Nat) (c : Nat × Nat) :
    c ∈ run_cells rows x lo hi ↔ c.2 = x ∧ lo ≤ c.1 ∧ c.1 < hi ∧ c.1 < rows := by
  obtain ⟨a, b⟩ := c
  simp only [run_cells, List.mem_map, List.mem_filter, mem_run_checks, decide_eq_true_eq,
    Prod.mk.injEq]
  constructor
  · rintro ⟨ay, ⟨⟨h1, h2⟩, h3⟩, rfl, rfl⟩
    exact ⟨rfl, h1, h2, h3⟩
  · rintro ⟨rfl, h1, h2, h3⟩
    exact ⟨a, ⟨⟨h1, h2⟩, h3⟩, rfl, rfl⟩

theorem col_next_ok (rows cols : Nat) (line : Line) (st : Bool × Nat) (x : Nat)
    (h : st.1 = true → st.2 < rows) :
    (col_next rows cols line st x).1 = true → (col_next rows cols line st x).2 < rows := by
  unfold col_next
  split
  · intro _; assumption
  · exact h

theorem col_cells_bound (rows cols : Nat) (line : Line) (st : Bool × Nat) (x : Nat)
    (c : Nat × Nat) (hc : c ∈ col_cells rows cols line st x) : c.1 < rows ∧ c.2 = x := by
  unfold col_cells at hc
  split at hc
  · split at hc
    · rw [mem_run_cells] at hc
      exact ⟨hc.2.2.2, hc.1⟩
    · rw [List.mem_singleton] at hc
      subst hc
      exact ⟨by assumption, rfl⟩
  · cases hc

theorem col_checks_bound (rows cols : Nat) (line : Line) (st : Bool × Nat) (x : Nat)
    (h : st.1 = true → st.2 < rows) (ay : Nat) (hc : ay ∈ col_checks rows cols line st x) :
    ay < rows := by
  unfold col_checks at hc
  split at hc
  · rename_i hy
    split at hc
    · rename_i hd
      rw [mem_run_checks] at hc
      exact lt_trans hc.2 (MAX_lt _ _ _ hy (h hd))
    · cases hc
  · cases hc

theorem cols_cells_bound (rows cols : Nat) (line : Line) :
    ∀ (xs : List Nat) (st : Bool × Nat), (∀ x ∈ xs, x < cols) →
      ∀ c ∈ cols_cells rows cols line st xs, c.1 < rows ∧ c.2 < cols := by
  intro xs
  induction xs with
  | nil => intro st _ c hc; cases hc
  | cons x xs ih =>
    intro st hx c hc
    simp only [cols_cells, List.mem_append] at hc
    rcases hc with hc | hc
    · obtain ⟨h1, h2⟩ := col_cells_bound rows cols line st x c hc
      exact ⟨h1, by rw [h2]; exact hx x (List.mem_cons_self _ _)⟩
    · exact ih _ (fun z hz => hx z (List.mem_cons_of_mem _ hz)) c hc

theorem cols_checks_bound (rows cols : Nat) (line : Line) :
    ∀ (xs : List Nat) (st : Bool × Nat), (st.1 = true → st.2 < rows) →
      ∀ ay ∈ cols_checks rows cols line st xs, ay < rows := by
  intro xs
  induction xs with
  | nil => intro st _ c hc; cases hc
  | cons x xs ih =>
    intro st hst ay hc
    simp only [cols_checks, List.mem_append] at hc
    rcases hc with hc | hc
    · exact col_checks_bound rows cols line st x hst ay hc
    · exact ih _ (col_next_ok rows cols line st x hst) ay hc

theorem cell_index_lt_grid (rows cols : Nat) (c : Nat × Nat) (h1 : c.1 < rows) (h2 : c.2 < cols) :
    cell_index cols c < rows * cols :=
  lt_of_le_of_lt (Nat.mod_le _ _) (cell_index_lt rows cols c.1 c.2 h1 h2)

theorem MIN_eq_min (a b : Nat) : MIN a b = min a b := by
  unfold MIN; split <;> omega

theorem MAX_eq_max (a b : Nat) : MAX a b = max a b := by
  unfold MAX; split <;> omega

theorem drawInv_zero (rows cols : Nat) (line : Line) : DrawInv rows cols line 0 (false, 0) :=
  ⟨fun _ x1 h => absurd h (Nat.not_lt_zero x1), fun h => by cases h⟩

theorem drawInv_next (rows cols : Nat) (line : Line) (n : Nat) (st : Bool × Nat)
    (h : DrawInv rows cols line n st) :
    DrawInv rows cols line (n + 1) (col_next rows cols line st n) := by
  unfold col_next
  by_cases hy : sample_row rows cols line n < rows
  · rw [if_pos hy]
    refine ⟨fun hf => Bool.noConfusion hf, fun _ => ⟨n, Nat.lt_succ_self n, hy, ?_, rfl⟩⟩
    intro x2 h1 h2
    omega
  · rw [if_neg hy]
    obtain ⟨h1, h2⟩ := h
    constructor
    · intro hf x1 hx1
      rcases Nat.lt_succ_iff_lt_or_eq.mp hx1 with hlt | heq
      · exact h1 hf x1 hlt
      · rw [heq]; exact hy
    · intro ht
      obtain ⟨x1, hx1, hin, hbetween, hly⟩ := h2 ht
      refine ⟨x1, Nat.lt_succ_of_lt hx1, hin, ?_, hly⟩
      intro x2 h3 h4
      rcases Nat.lt_succ_iff_lt_or_eq.mp h4 with hlt | heq
      · exact hbetween x2 h3 hlt
      · rw [heq]; exact hy

theorem col_cells_iff (rows cols : Nat) (line : Line) (n : Nat) (st : Bool × Nat)
    (h : DrawInv rows cols line n st) (c : Nat × Nat) :
    c ∈ col_cells rows cols line st n ↔ c.2 = n ∧ line_marks rows cols line c.1 n := by
  obtain ⟨h1, h2⟩ := h
  unfold col_cells line_marks
  by_cases hy : sample_row rows cols line n < rows
  · rw [if_pos hy]
    by_cases hd : st.1 = true
    · rw [if_pos hd, mem_run_cells, MIN_eq_min, MAX_eq_max]
      obtain ⟨x1, hx1, hin, hbetween, hly⟩ := h2 hd
      constructor
      · rintro ⟨e, hlo, hhi, _⟩
        refine ⟨e, hy, Or.inr ⟨x1, hx1, hin, hbetween, ?_, ?_⟩⟩
        · rw [← hly]; exact hlo
        · rw [← hly]; exact hhi
      · rintro ⟨e, _, hcase⟩
        rcases hcase with ⟨hnone, _⟩ | ⟨x3, hx3, hin3, hbetween3, hlo, hhi⟩
        · exact absurd hin (hnone x1 hx1)
        · have hx : x3 = x1 := by
            rcases Nat.lt_trichotomy x3 x1 with hlt | heq | hgt
            · exact absurd hin (hbetween3 x1 hlt hx1)
            · exact heq
            · exact absurd hin3 (hbetween x3 hgt hx3)
          subst hx
          rw [← hly] at hlo hhi
          refine ⟨e, hlo, hhi, lt_of_lt_of_le hhi ?_⟩
          rw [hly]
          exact max_le (le_of_lt hy) (le_of_lt hin)
    · have hf : st.1 = false := by simpa using hd
      rw [if_neg hd, List.mem_singleton]
      constructor
      · intro e
        rw [e]
        exact ⟨rfl, hy, Or.inl ⟨h1 hf, rfl⟩⟩
      · rintro ⟨e, _, hcase⟩
        rcases hcase with ⟨_, ha⟩ | ⟨x3, hx3, hin3, _⟩
        · exact Prod.ext ha e
        · exact absurd hin3 (h1 hf x3 hx3)
  · rw [if_neg hy]
    constructor
    · intro hc; cases hc
    · rintro ⟨_, hin, _⟩; exact absurd hin hy

theorem cols_cells_iff (rows cols : Nat) (line : Line) (c : Nat × Nat) :
    ∀ (k n : Nat) (st : Bool × Nat), DrawInv rows cols line n st →
      (c ∈ cols_cells rows cols line st (List.range' n k) ↔
        n ≤ c.2 ∧ c.2 < n + k ∧ line_marks rows cols line c.1 c.2) := by
  intro k
  induction k with
  | zero =>
    intro n st _
    simp only [List.range'_zero, cols_cells, List.not_mem_nil, false_iff]
    omega
  | succ k ih =>
    intro n st h
    rw [List.range'_succ]
    simp only [cols_cells, List.mem_append]
    rw [col_cells_iff rows cols line n st h c, ih (n + 1) _ (drawInv_next rows cols line n st h)]
    constructor
    · rintro (⟨e, hm⟩ | ⟨h1, h2, hm⟩)
      · refine ⟨by omega, by omega, ?_⟩
        rw [e]; exact hm
      · exact ⟨by omega, by omega, hm⟩
    · rintro ⟨h1, h2, hm⟩
      rcases Nat.eq_or_lt_of_le h1 with e | hlt
      · left
        refine ⟨e.symm, ?_⟩
        rw [e]; exact hm
      · right
        exact ⟨hlt, by omega, hm⟩

theorem line_cells_iff (rows cols : Nat) (line : Line) (c : Nat × Nat) :
    c ∈ line_cells rows cols line ↔ c.2 < cols ∧ line_marks rows cols line c.1 c.2 := by
  unfold line_cells
  rw [List.range_eq_range', cols_cells_iff rows cols line c cols 0 (false, 0)
    (drawInv_zero rows cols line)]
  constructor
  · rintro ⟨_, h2, h3⟩
    exact ⟨by omega, h3⟩
  · rintro ⟨h2, h3⟩
    exact ⟨Nat.zero_le _, by omega, h3⟩

theorem cell_decode (cols a x b z : Nat) (hx : x < cols) (hz : z < cols)
    (h : a * cols + x = b * cols + z) : a = b ∧ x = z := by
  have hpos : 0 < cols := by omega
  have m1 : (a * cols + x) % cols = x := by
    rw [Nat.add_comm, Nat.add_mul_mod_self_right, Nat.mod_eq_of_lt hx]
  have m2 : (b * cols + z) % cols = z := by
    rw [Nat.add_comm, Nat.add_mul_mod_self_right, Nat.mod_eq_of_lt hz]
  have d1 : (a * cols + x) / cols = a := by
    rw [Nat.add_comm, Nat.add_mul_div_right _ _ hpos, Nat.div_eq_of_lt hx, Nat.zero_add]
  have d2 : (b * cols + z) / cols = b := by
    rw [Nat.add_comm, Nat.add_mul_div_right _ _ hpos, Nat.div_eq_of_lt hz, Nat.zero_add]
  rw [h] at m1 d1
  exact ⟨by omega, by omega⟩

theorem cell_index_eq (rows cols : Nat) (hsz : rows * cols < 2 ^ 64) (c : Nat × Nat)
    (h1 : c.1 < rows) (h2 : c.2 < cols) : cell_index cols c = c.1 * cols + c.2 :=
  Nat.mod_eq_of_lt (lt_trans (cell_index_lt rows cols c.1 c.2 h1 h2) hsz)

theorem line_cells_bound (rows cols : Nat) (line : Line) (c : Nat × Nat)
    (hc : c ∈ line_cells rows cols line) : c.1 < rows ∧ c.2 < cols :=
  cols_cells_bound rows cols line (List.range cols) (false, 0)
    (fun _ hx => List.mem_range.mp hx) c hc

theorem draw_line_marks (rows cols : Nat) (line : Line) (hsz : rows * cols < 2 ^ 64)
    (a x : Nat) (ha : a < rows) (hx : x < cols) :
    (draw_line rows cols (calloc (rows * cols)) line)[a * cols + x]? = some true ↔
      line_marks rows cols line a x := by
  rw [draw_line_alone, List.mem_map]
  constructor
  · rintro ⟨⟨c, hc, he⟩, _⟩
    obtain ⟨h1, h2⟩ := line_cells_bound rows cols line c hc
    rw [cell_index_eq rows cols hsz c h1 h2] at he
    obtain ⟨e1, e2⟩ := cell_decode cols c.1 c.2 a x h2 hx he
    have := ((line_cells_iff rows cols line c).mp hc).2
    rw [e1, e2] at this
    exact this
  · intro hm
    refine ⟨⟨(a, x), (line_cells_iff rows cols line (a, x)).mpr ⟨hx, hm⟩, ?_⟩,
      cell_index_lt rows cols a x ha hx⟩
    exact cell_index_eq rows cols hsz (a, x) ha hx

/-- C13: for one line drawn by `graph_draw` on an all-false grid of `rows * cols` cells, cell
`(a, x)` is marked exactly when the sample row `y` of column `x` is in `[0, rows)` and either
`x` is the first such column and `a = y`, or `min y ly <= a < max y ly` for the sample row `ly`
of the nearest earlier column whose sample row is in range (columns whose sample row is out of
range get no cell and are skipped over when `ly` is looked up). -/
theorem C13_marked_cells (graph : Graph) (line : Line) (hl : graph.lines = [line])
    (hgrid : graph.grid = calloc (graph.rows * graph.cols))
    (hsz : graph.rows * graph.cols < 2 ^ 64)
    (a x : Nat) (ha : a < graph.rows) (hx : x < graph.cols) :
    (graph_draw graph).grid[a * graph.cols + x]? = some true ↔
      line_marks graph.rows graph.cols line a x := by
  have e : (graph_draw graph).grid =
      draw_line graph.rows graph.cols (calloc (graph.rows * graph.cols)) line := by
    show graph.lines.foldl (draw_line graph.rows graph.cols) graph.grid = _
    rw [hl, hgrid]
    rfl
  rw [e]
  exact draw_line_marks graph.rows graph.cols line hsz a x ha hx

/-- C13 (witness): the theorem at the line `x` on the 10 x 10 grid and the cell (8, 2): it is
marked, column 1 being the nearest earlier column in range, with sample row 9. -/
theorem C13_witness :
    (graph_draw (graph10 [⟨f32 1, 1⟩])).grid[8 * 10 + 2]? = some true ∧
    line_marks 10 10 [⟨f32 1, 1⟩] 8 2 :=
  ⟨by decide,
    (C13_marked_cells (graph10 [⟨f32 1, 1⟩]) [⟨f32 1, 1⟩] rfl rfl (by decide) 8 2
      (by decide) (by decide)).mp (by decide)⟩

theorem draw_cols_ly (rows cols : Nat) (line : Line) :
    ∀ (xs : List Nat) (st : DrawState), st.ly < rows →
      (xs.foldl (draw_col rows cols line) st).ly < rows := by
  intro xs
  induction xs with
  | nil => intro st h; exact h
  | cons x xs ih =>
    intro st h
    rw [List.foldl_cons]
    apply ih
    rw [draw_col_eq]
    show (col_next rows cols line (st.drawn, st.ly) x).2 < rows
    unfold col_next
    split
    · assumption
    · exact h

/-- C16: for every graph with `rows > 0` and a grid of `rows * cols` cells, every cell
`(ay, x)` or `(y, x)` that `graph_draw` stores to has its row below `rows` and its column below
`cols`, so that the index `ay * cols + x` is below `rows * cols` and inside the grid; every
value of `ay` that reaches the check `ay < rows` of the connecting run satisfies it; and after
any number of columns of any line `ly` is below `rows` (it is 0 or an accepted row). -/
theorem C16_draw_in_bounds (graph : Graph) (hr : 0 < graph.rows)
    (hlen : graph.grid.length = graph.rows * graph.cols) :
    (∀ c ∈ graph_cells graph, c.1 < graph.rows ∧ c.2 < graph.cols ∧
      cell_index graph.cols c < graph.rows * graph.cols ∧
      cell_index graph.cols c < graph.grid.length) ∧
    (∀ ay ∈ graph_checks graph, ay < graph.rows) ∧
    (∀ (line : Line) (grid : List Bool) (n : Nat),
      ((List.range n).foldl (draw_col graph.rows graph.cols line) ⟨false, 0, grid⟩).ly <
        graph.rows) := by
  refine ⟨?_, ?_, ?_⟩
  · intro c hcm
    simp only [graph_cells, List.mem_flatMap] at hcm
    obtain ⟨line, _, hcl⟩ := hcm
    obtain ⟨h1, h2⟩ := line_cells_bound graph.rows graph.cols line c hcl
    have h3 := cell_index_lt_grid graph.rows graph.cols c h1 h2
    exact ⟨h1, h2, h3, by rw [hlen]; exact h3⟩
  · intro ay ham
    simp only [graph_checks, List.mem_flatMap] at ham
    obtain ⟨line, _, hal⟩ := ham
    exact cols_checks_bound graph.rows graph.cols line (List.range graph.cols) (false, 0)
      (fun h => by cases h) ay hal
  · intro line grid n
    exact draw_cols_ly graph.rows graph.cols line _ _ hr

/-- C16 (witness): the theorem at the 10 x 10 grid with the line `x2`. -/
theorem C16_witness :
    (∀ c ∈ graph_cells (graph10 [⟨f32 1, 2⟩]), cell_index 10 c < 100) ∧
    (∀ ay ∈ graph_checks (graph10 [⟨f32 1, 2⟩]), ay < 10) :=
  ⟨fun c hc => ((C16_draw_in_bounds (graph10 [⟨f32 1, 2⟩]) (by decide) (by decide)).1 c hc).2.2.1,
    (C16_draw_in_bounds (graph10 [⟨f32 1, 2⟩]) (by decide) (by decide)).2.1⟩

theorem dropWhile_head_neg (p : Char → Bool) : ∀ (l : List Char) (c : Char) (rest : List Char),
    l.dropWhile p = c :: rest → p c = false := by
  intro l
  induction l with
  | nil => intro c rest h; cases h
  | cons a l ih =>
    intro c rest h
    by_cases ha : p a = true
    · rw [List.dropWhile_cons_of_pos ha] at h
      exact ih c rest h
    · rw [List.dropWhile_cons_of_neg ha] at h
      injection h with h1 h2
      rw [← h1]; simpa using ha

theorem expPart_suffix (mk : Char) (s : List Char) : (expPart mk s).2 <:+ s := by
  cases s with
  | nil => exact List.suffix_refl _
  | cons c r =>
    simp only [expPart]
    split_ifs
    all_goals first
      | exact List.suffix_refl _
      | exact (List.dropWhile_suffix _).trans ((List.drop_suffix _ _).trans (List.suffix_cons _ _))
      | exact (List.dropWhile_suffix _).trans (List.suffix_cons _ _)

theorem strtoDec_rest (f : Fmt) (neg : Bool) (s : List Char) (v : FP × List Char)
    (h : strtoDec f neg s = some v) : v.2 <:+ s.dropWhile isdigit := by
  simp only [strtoDec] at h
  split_ifs at h
  all_goals first
    | (cases h; done)
    | (obtain rfl := Option.some.inj h
       first
         | exact (expPart_suffix _ _).trans ((List.dropWhile_suffix _).trans (List.drop_suffix _ _))
         | exact expPart_suffix _ _)

theorem strtoDec_suffix (f : Fmt) (neg : Bool) (s : List Char) (v : FP × List Char)
    (h : strtoDec f neg s = some v) : v.2 <:+ s :=
  (strtoDec_rest f neg s v h).trans (List.dropWhile_suffix _)

theorem strtoDec_digit (f : Fmt) (neg : Bool) (c : Char) (s : List Char) (hc : isdigit c = true) :
    ∃ v, strtoDec f neg (c :: s) = some v ∧ v.2 <:+ s := by
  have hne : ¬ ((c :: s).takeWhile isdigit = [] ∧
      (if peek ((c :: s).dropWhile isdigit) = '.' then
        (((c :: s).dropWhile isdigit).drop 1).takeWhile isdigit else []) = []) := by
    rw [List.takeWhile_cons_of_pos hc]
    simp
  have hsome : ∃ v, strtoDec f neg (c :: s) = some v := by
    simp only [strtoDec, if_neg hne]
    exact ⟨_, rfl⟩
  obtain ⟨v, hv⟩ := hsome
  refine ⟨v, hv, ?_⟩
  have := strtoDec_rest f neg (c :: s) v hv
  rw [List.dropWhile_cons_of_pos hc] at this
  exact this.trans (List.dropWhile_suffix _)

theorem strtoHex_suffix (f : Fmt) (neg : Bool) (s : List Char) (v : FP × List Char)
    (h : strtoHex f neg s = some v) : v.2 <:+ s := by
  simp only [strtoHex] at h
  split_ifs at h
  all_goals first
    | (cases h; done)
    | (obtain rfl := Option.some.inj h
       first
         | exact (expPart_suffix _ _).trans ((List.dropWhile_suffix _).trans
             ((List.drop_suffix _ _).trans (List.dropWhile_suffix _)))
         | exact (expPart_suffix _ _).trans (List.dropWhile_suffix _))

theorem drop_cons_suffix (c : Char) (s : List Char) (k : Nat) : (c :: s).drop (k + 1) <:+ s := by
  rw [List.drop_succ_cons]
  exact List.drop_suffix _ _

theorem strtoBody_suffix (f : Fmt) (neg : Bool) (s : List Char) (v : FP × List Char)
    (h : strtoBody f neg s = some v) : v.2 <:+ s := by
  simp only [strtoBody] at h
  split_ifs at h
  all_goals first
    | (obtain rfl := Option.some.inj h
       first
         | exact List.drop_suffix _ _
         | exact (List.drop_suffix _ _).trans ((List.drop_suffix _ _).trans (List.drop_suffix _ _)))
    | exact strtoDec_suffix f neg _ _ h
    | skip
  split at h
  · rename_i w hw
    obtain rfl := Option.some.inj h
    exact (strtoHex_suffix f neg _ _ hw).trans (List.drop_suffix _ _)
  · exact strtoDec_suffix f neg _ _ h

theorem strtoBody_digit (f : Fmt) (neg : Bool) (c : Char) (s : List Char) (hc : isdigit c = true) :
    ∃ v, strtoBody f neg (c :: s) = some v ∧ v.2 <:+ s := by
  obtain ⟨w, hw, hws⟩ := strtoDec_digit f neg c s hc
  simp only [strtoBody]
  split_ifs
  all_goals first
    | exact ⟨_, rfl, drop_cons_suffix c s _⟩
    | exact ⟨_, rfl, (List.drop_suffix _ _).trans ((List.drop_suffix _ _).trans
        (drop_cons_suffix c s _))⟩
    | exact ⟨w, hw, hws⟩
    | skip
  split
  · rename_i u hu
    exact ⟨u, rfl, (strtoHex_suffix f neg _ _ hu).trans (drop_cons_suffix c s _)⟩
  · exact ⟨w, hw, hws⟩

theorem strto_suffix (f : Fmt) (s : List Char) : (strto f s).2 <:+ s := by
  simp only [strto]
  split
  · rename_i v hv
    refine (strtoBody_suffix f _ _ v hv).trans ?_
    split
    · exact (List.drop_suffix _ _).trans (List.dropWhile_suffix _)
    · exact List.dropWhile_suffix _
  · exact List.suffix_refl _

theorem strto_digit (f : Fmt) (c : Char) (s : List Char) (hc : isdigit c = true) :
    (strto f (c :: s)).2 <:+ s := by
  have hsp : (c :: s).dropWhile isspace = c :: s :=
    dropWhile_peek_neg isspace _ (isdigit_not_space c hc)
  obtain ⟨hm, hp⟩ := isdigit_not_sign c hc
  have hpk : peek (c :: s) = c := rfl
  obtain ⟨v, hv, hvs⟩ := strtoBody_digit f (decide (c = '-')) c s hc
  simp only [strto, hsp, hpk, hm, hp, or_self, if_false, decide_False]
  simp only [hm, decide_False] at hv
  rw [hv]
  exact hvs

theorem parse_scale_suffix (expr : List Char) : (parse_scale expr).2 <:+ expr := by
  simp only [parse_scale]
  split
  · exact (strto_suffix _ _).trans (List.dropWhile_suffix _)
  · exact List.dropWhile_suffix _

theorem parse_power_suffix (expr : List Char) : (parse_power expr).2 <:+ expr := by
  simp only [parse_power, skip_whitespace]
  split
  · exact List.dropWhile_suffix _
  · split
    · exact (strto_suffix _ _).trans ((List.dropWhile_suffix _).trans
        ((List.drop_suffix _ _).trans (List.dropWhile_suffix _)))
    · exact (List.dropWhile_suffix _).trans ((List.drop_suffix _ _).trans (List.dropWhile_suffix _))

theorem parse_power_x (rest : List Char) : (parse_power ('x' :: rest)).2 <:+ rest := by
  have hsp : ('x' :: rest).dropWhile isspace = 'x' :: rest :=
    dropWhile_peek_neg isspace _ (by show isspace 'x' = false; decide)
  have hpk : peek ('x' :: rest) = 'x' := rfl
  simp only [parse_power, skip_whitespace, hsp, hpk, ne_eq, not_true_eq_false, if_false,
    List.drop_succ_cons, List.drop_zero]
  split
  · exact (strto_suffix _ _).trans (List.dropWhile_suffix _)
  · exact List.dropWhile_suffix _

theorem not_suffix_cons (c : Char) (rest : List Char) : ¬ (c :: rest) <:+ rest := by
  intro h
  have := h.length_le
  simp at this

theorem term_parse_other (term : Term) (c : Char) (rest : List Char)
    (hsp : isspace c = false) (h0 : c ≠ Char.ofNat 0)
    (hn : ¬ (c = '+' ∨ c = '-' ∨ isdigit c = true ∨ c = 'x')) :
    term_parse term (c :: rest) = (true, ⟨f32 1, 0⟩, c :: rest) := by
  have hplus : ¬ c = '+' := fun h => hn (Or.inl h)
  have hminus : ¬ c = '-' := fun h => hn (Or.inr (Or.inl h))
  have hdig : ¬ isdigit c = true := fun h => hn (Or.inr (Or.inr (Or.inl h)))
  have hx : ¬ c = 'x' := fun h => hn (Or.inr (Or.inr (Or.inr h)))
  have hd : (c :: rest).dropWhile isspace = c :: rest := dropWhile_peek_neg isspace _ hsp
  have hpk : peek (c :: rest) = c := rfl
  simp [term_parse, parse_scale, parse_power, skip_whitespace, hd, hpk, hplus, hminus, hdig, hx, h0]

theorem term_parse_cons (term : Term) (c : Char) (rest : List Char) (hsp : isspace c = false) :
    term_parse term (c :: rest) =
      if c = '-' then
        (true, ⟨FP.neg (parse_scale rest).1, (parse_power (parse_scale rest).2).1⟩,
          (parse_power (parse_scale rest).2).2)
      else if c = '+' then
        (true, ⟨(parse_scale rest).1, (parse_power (parse_scale rest).2).1⟩,
          (parse_power (parse_scale rest).2).2)
      else if c = Char.ofNat 0 then (false, term, c :: rest)
      else
        (true, ⟨(parse_scale (c :: rest)).1, (parse_power (parse_scale (c :: rest)).2).1⟩,
          (parse_power (parse_scale (c :: rest)).2).2) := by
  have hd : (c :: rest).dropWhile isspace = c :: rest := dropWhile_peek_neg isspace _ hsp
  have hpk : peek (c :: rest) = c := rfl
  simp only [term_parse, skip_whitespace, hd, hpk, List.drop_succ_cons, List.drop_zero]

theorem term_parse_progress (term : Term) (c : Char) (rest : List Char)
    (hsp : isspace c = false)
    (hy : c = '+' ∨ c = '-' ∨ isdigit c = true ∨ c = 'x') :
    (term_parse term (c :: rest)).1 = true ∧ (term_parse term (c :: rest)).2.2 <:+ rest := by
  have hd : (c :: rest).dropWhile isspace = c :: rest := dropWhile_peek_neg isspace _ hsp
  have hpk : peek (c :: rest) = c := rfl
  rw [term_parse_cons term c rest hsp]
  by_cases hminus : c = '-'
  · rw [if_pos hminus]
    exact ⟨rfl, (parse_power_suffix _).trans (parse_scale_suffix _)⟩
  rw [if_neg hminus]
  by_cases hplus : c = '+'
  · rw [if_pos hplus]
    exact ⟨rfl, (parse_power_suffix _).trans (parse_scale_suffix _)⟩
  rw [if_neg hplus]
  by_cases hdig : isdigit c = true
  · have h0 : ¬ c = Char.ofNat 0 := by
      intro h; rw [h] at hdig; exact absurd hdig (by decide)
    rw [if_neg h0]
    refine ⟨rfl, (parse_power_suffix _).trans ?_⟩
    simp only [parse_scale, skip_whitespace, hd, hpk, hdig, true_or, if_true]
    exact strto_digit _ c rest hdig
  · have hx : c = 'x' := by
      rcases hy with h | h | h | h
      · exact absurd h hplus
      · exact absurd h hminus
      · exact absurd h hdig
      · exact h
    have h0 : ¬ c = Char.ofNat 0 := by
      intro h; rw [hx] at h; exact absurd h (by decide)
    rw [if_neg h0]
    refine ⟨rfl, ?_⟩
    have hsc : parse_scale (c :: rest) = (f32 1, c :: rest) := by
      simp [parse_scale, skip_whitespace, hd, hpk, hdig, hminus]
    rw [hsc, hx]
    exact parse_power_x rest

/-- C14: for every cursor whose first character after white space is a character `c` other than
the end of input, `term_parse` returns `true`; it leaves the cursor past `c` (at a suffix of
the text after `c`) exactly when `c` is `+`, `-`, a digit or `x`; for any other `c` it stores
the term (scale 1, power 0) and leaves the cursor at `c`, every further call does the same, and
`line_parse` ends for no bound on its loop. -/
theorem C14_term_parse_progress (term : Term) (expr rest : List Char) (c : Char)
    (h : skip_whitespace expr = c :: rest) (hc : c ≠ Char.ofNat 0) :
    (term_parse term expr).1 = true ∧
    ((term_parse term expr).2.2 <:+ rest ↔
      (c = '+' ∨ c = '-' ∨ isdigit c = true ∨ c = 'x')) ∧
    (¬ (c = '+' ∨ c = '-' ∨ isdigit c = true ∨ c = 'x') →
      (term_parse term expr).2.1 = ⟨f32 1, 0⟩ ∧ (term_parse term expr).2.2 = c :: rest ∧
      (∀ t, term_parse t (c :: rest) = (true, ⟨f32 1, 0⟩, c :: rest)) ∧
      ∀ fuel line, line_parse fuel line expr = none) := by
  have hsp : isspace c = false := dropWhile_head_neg isspace expr c rest h
  have hskip : skip_whitespace (c :: rest) = c :: rest := dropWhile_peek_neg isspace _ hsp
  have he : ∀ t, term_parse t expr = term_parse t (c :: rest) := by
    intro t
    simp only [term_parse, h, hskip]
  rw [he term]
  by_cases hy : c = '+' ∨ c = '-' ∨ isdigit c = true ∨ c = 'x'
  · obtain ⟨h1, h2⟩ := term_parse_progress term c rest hsp hy
    exact ⟨h1, ⟨fun _ => hy, fun _ => h2⟩, fun hn => absurd hy hn⟩
  · have hother : ∀ t, term_parse t (c :: rest) = (true, ⟨f32 1, 0⟩, c :: rest) :=
      fun t => term_parse_other t c rest hsp hc hy
    rw [hother term]
    refine ⟨rfl, ⟨fun hs => absurd hs (not_suffix_cons c rest), fun h' => absurd h' hy⟩, ?_⟩
    intro _
    refine ⟨rfl, rfl, hother, ?_⟩
    intro fuel line
    cases fuel with
    | zero => rfl
    | succ n =>
      simp only [line_parse, line_parse_loop, he, hother]
      exact line_parse_loop_stuck (c :: rest) (fun t => by rw [hother t]; exact ⟨rfl, rfl⟩) _ _ _

/-- C14 (witness): the theorem at the cursor `" ?x"`, whose first character after white space
is `?`. -/
theorem C14_witness :
    term_parse ⟨FP.zero, 0⟩ " ?x".toList = (true, ⟨f32 1, 0⟩, "?x".toList) ∧
    ∀ fuel line, line_parse fuel line " ?x".toList = none :=
  ⟨by decide,
    ((C14_term_parse_progress ⟨FP.zero, 0⟩ " ?x".toList "x".toList '?' (by decide)
      (by decide)).2.2 (by decide)).2.2.2⟩

/-- C11 (the code at the failing input): on `"?"` `term_parse` yields the term (scale 1,
power 0) and leaves the cursor on `?`, so `line_parse` does not complete, whatever the bound on
its loop; on `"2 * x"` it parses the term `2` and then never gets past `*`. -/
theorem C11_malformed_never_completes :
    term_parse ⟨FP.zero, 0⟩ "?".toList = (true, ⟨f32 1, 0⟩, "?".toList) ∧
    (¬ ∃ fuel r, line_parse fuel [] "?".toList = some r) ∧
    term_parse ⟨FP.zero, 0⟩ "2 * x".toList = (true, ⟨f32 2, 0⟩, "* x".toList) ∧
    (¬ ∃ fuel r, line_parse fuel [] "2 * x".toList = some r) := by
  refine ⟨by decide, ?_, by decide, ?_⟩
  · rintro ⟨fuel, r, h⟩
    have hs := line_parse_loop_stuck "?".toList (fun t => ⟨rfl, rfl⟩) fuel ⟨FP.zero, 0⟩ []
    rw [line_parse, hs] at h
    cases h
  · rintro ⟨fuel, r, h⟩
    rw [line_parse_stuck_after fuel "2 * x".toList "* x".toList ⟨f32 2, 0⟩ (by decide)
      (fun t => ⟨rfl, rfl⟩)] at h
    cases h

theorem ofNat64_toSizeT (n : Nat) (h : n < 2 ^ 53) : (FP.ofNat binary64 n).toSizeT = n := by
  by_cases h0 : n = 0
  · subst h0; decide
  have hL : bitLen n ≤ 53 := (bitLen_le_iff n 53).2 h
  have hLpos : 0 < bitLen n := by
    rw [lt_bitLen_iff]; simpa using Nat.pos_of_ne_zero h0
  have hprec : binary64.prec = 53 := rfl
  have hemin : binary64.emin = -1074 := rfl
  have hemax : binary64.emax = 971 := rfl
  have hE : max ((0 : Int) + (bitLen n : Int) - (binary64.prec : Int)) binary64.emin
      = (bitLen n : Int) - 53 := by
    rw [hprec, hemin, max_eq_left (by omega)]; omega
  have hle : (bitLen n : Int) - 53 ≤ 0 := by omega
  have hk : ((0 : Int) - ((bitLen n : Int) - 53)).toNat = 53 - bitLen n := by omega
  have hm : n * 2 ^ (53 - bitLen n) ≠ 0 := Nat.mul_ne_zero h0 (Nat.two_pow_pos _).ne'
  simp only [FP.ofNat, FP.round, hE, if_pos hle, hk]
  rw [FP.finish_fin binary64 false _ _ hm (by rw [hemax]; omega)]
  simp only [FP.toSizeT, FP.truncNat, Bool.false_eq_true, if_false]
  have ht : (if (0 : Int) ≤ (bitLen n : Int) - 53 then
      n * 2 ^ (53 - bitLen n) * 2 ^ ((bitLen n : Int) - 53).toNat
      else n * 2 ^ (53 - bitLen n) / 2 ^ (-((bitLen n : Int) - 53)).toNat) = n := by
    split
    · have e1 : 53 - bitLen n = 0 := by omega
      have e2 : ((bitLen n : Int) - 53).toNat = 0 := by omega
      rw [e1, e2]; simp
    · have e2 : (-((bitLen n : Int) - 53)).toNat = 53 - bitLen n := by omega
      rw [e2, Nat.mul_div_cancel _ (Nat.two_pow_pos _)]
  rw [ht, if_pos (by omega)]

theorem lower_digit (c : Char) (h : isdigit c = true) : lower c = c := by
  simp only [isdigit, Bool.and_eq_true, decide_eq_true_eq] at h
  unfold lower
  rw [if_neg (by omega)]

theorem startsNoCase_head (a : Char) (w : List Char) (c : Char) (s : List Char)
    (h : lower c ≠ a) : startsNoCase (a :: w) (c :: s) = false := by
  simp [startsNoCase, h]

theorem digit_ne_letter (c : Char) (h : isdigit c = true) (a : Char) (ha : isdigit a = false) :
    lower c ≠ a := by
  rw [lower_digit c h]
  intro e
  rw [e] at h
  rw [h] at ha
  cases ha

theorem startsNoCase_hex (c : Char) (ds t : List Char) (hds : ∀ d ∈ ds, isdigit d = true)
    (ht : lower (peek t) ≠ 'x') : startsNoCase ['0', 'x'] (c :: (ds ++ t)) = false := by
  cases ds with
  | nil =>
    cases t with
    | nil => simp [startsNoCase]
    | cons u r =>
      have hu : lower u ≠ 'x' := ht
      simp [startsNoCase, hu]
  | cons d r =>
    have hd : lower d ≠ 'x' :=
      digit_ne_letter d (hds d (List.mem_cons_self _ _)) 'x' (by decide)
    simp [startsNoCase, hd]

theorem expPart_none (mk : Char) (t : List Char) (h : lower (peek t) ≠ mk) :
    expPart mk t = (0, t) := by
  cases t with
  | nil => rfl
  | cons u r =>
    have hu : ¬ lower u = mk := h
    simp only [expPart, if_neg hu]

theorem strto_numeral (f : Fmt) (ds t : List Char) (hds : ∀ c ∈ ds, isdigit c = true)
    (hne : ds ≠ []) (ht : isdigit (peek t) = false) (hdot : peek t ≠ '.')
    (he : lower (peek t) ≠ 'e') (hx : lower (peek t) ≠ 'x') :
    strto f (ds ++ t) = (FP.ofNat f (decVal ds), t) := by
  obtain ⟨c, r, rfl⟩ := List.exists_cons_of_ne_nil hne
  have hc : isdigit c = true := hds c (List.mem_cons_self _ _)
  have hr : ∀ d ∈ r, isdigit d = true := fun d hd => hds d (List.mem_cons_of_mem _ hd)
  have hsp : (c :: r ++ t).dropWhile isspace = c :: r ++ t :=
    dropWhile_peek_neg isspace _ (isdigit_not_space c hc)
  obtain ⟨hm, hp⟩ := isdigit_not_sign c hc
  have hpk : peek (c :: r ++ t) = c := rfl
  have h1 : startsNoCase ['i', 'n', 'f', 'i', 'n', 'i', 't', 'y'] (c :: (r ++ t)) = false :=
    startsNoCase_head _ _ _ _ (digit_ne_letter c hc 'i' (by decide))
  have h2 : startsNoCase ['i', 'n', 'f'] (c :: (r ++ t)) = false :=
    startsNoCase_head _ _ _ _ (digit_ne_letter c hc 'i' (by decide))
  have h3 : startsNoCase ['n', 'a', 'n'] (c :: (r ++ t)) = false :=
    startsNoCase_head _ _ _ _ (digit_ne_letter c hc 'n' (by decide))
  have h4 : startsNoCase ['0', 'x'] (c :: (r ++ t)) = false := startsNoCase_hex c r t hr hx
  have htake : (c :: r ++ t).takeWhile isdigit = c :: r := by
    rw [List.takeWhile_append_of_pos hds, takeWhile_peek_neg isdigit t ht, List.append_nil]
  have hdrop : (c :: r ++ t).dropWhile isdigit = t := by
    rw [List.dropWhile_append_of_pos hds, dropWhile_peek_neg isdigit t ht]
  have hdec : strtoDec f false (c :: r ++ t) = some (FP.ofNat f (decVal (c :: r)), t) := by
    simp only [strtoDec, htake, hdrop, hdot, if_false, expPart_none 'e' t he]
    simp [FP.ofNat]
  simp only [strto, hsp, hpk, hm, hp, or_self, if_false, decide_False]
  simp only [strtoBody, List.cons_append, h1, h2, h3, h4, Bool.false_eq_true, if_false]
  rw [← List.cons_append, hdec]

theorem parse_power_not_x (expr : List Char) (h : peek (skip_whitespace expr) ≠ 'x') :
    parse_power expr = (0, skip_whitespace expr) := by
  simp only [parse_power, if_pos h]

theorem parse_power_bare (expr r : List Char) (hx : skip_whitespace expr = 'x' :: r)
    (hd : isdigit (peek (skip_whitespace r)) = false) :
    parse_power expr = (1, skip_whitespace r) := by
  have hpk : peek ('x' :: r) = 'x' := rfl
  simp [parse_power, hx, hpk, hd]

theorem parse_power_numeral (expr r ds t : List Char) (hx : skip_whitespace expr = 'x' :: r)
    (hr : skip_whitespace r = ds ++ t) (hds : ∀ c ∈ ds, isdigit c = true) (hne : ds ≠ [])
    (ht : isdigit (peek t) = false) (hdot : peek t ≠ '.')
    (he : lower (peek t) ≠ 'e') (hxx : lower (peek t) ≠ 'x') (hlt : decVal ds < 2 ^ 53) :
    parse_power expr = (decVal ds, t) := by
  obtain ⟨c, ds1, rfl⟩ := List.exists_cons_of_ne_nil hne
  have hc : isdigit c = true := hds c (List.mem_cons_self _ _)
  have hpk : peek ('x' :: r) = 'x' := rfl
  have hpk2 : isdigit (peek (c :: ds1 ++ t)) = true := hc
  have hs := strto_numeral binary64 (c :: ds1) t hds (List.cons_ne_nil _ _) ht hdot he hxx
  simp only [parse_power, hx, hpk, ne_eq, not_true_eq_false, if_false, List.drop_succ_cons,
    List.drop_zero, hr, hpk2, if_true, strtod, hs]
  rw [ofNat64_toSizeT _ hlt]

/-- C15 (counterexample): on `"x1e2"` `parse_power` returns 100 with the cursor at the end, not
the value 1 of the digit string `1` with the cursor at `e2`; on `"x0x10"` it returns 16 and
consumes `0x10`: the exponent is read by `strtod`, which takes a whole floating-point
literal, hexadecimal ones included. -/
theorem C15_counterexample :
    parse_power "x1e2".toList = (100, []) ∧
    parse_power "x1e2".toList ≠ (decVal "1".toList, "e2".toList) ∧
    parse_power "x0x10".toList = (16, []) := by
  decide

/-- C15 (amended): on a cursor whose first character after white space is `x`, `parse_power`
consumes the `x` and the white space after it; if a digit follows, it reads a number with
`strtod` and returns it converted to `size_t`: for a string `ds` of decimal digits of value
below `2 ^ 53` followed by a text `t` that starts with neither a digit, `.`, `e`, `E`, `x` nor
`X`, that is the value of `ds`, and the cursor is left at `t`; if no digit follows it returns 1
and consumes nothing further. On `"x2"` it returns 2 with the cursor at the end, on `"x^2"` it
returns 1 with the cursor at `^`. When the first character after white space is not `x` it
returns 0. -/
theorem C15_parse_power (expr r ds t : List Char) (hx : skip_whitespace expr = 'x' :: r)
    (hr : skip_whitespace r = ds ++ t) (hds : ∀ c ∈ ds, isdigit c = true) (hne : ds ≠ [])
    (ht : isdigit (peek t) = false) (hdot : peek t ≠ '.')
    (he : lower (peek t) ≠ 'e') (hxx : lower (peek t) ≠ 'x') (hlt : decVal ds < 2 ^ 53) :
    parse_power expr = (decVal ds, t) ∧
    (∀ e1 r1, skip_whitespace e1 = 'x' :: r1 → isdigit (peek (skip_whitespace r1)) = false →
      parse_power e1 = (1, skip_whitespace r1)) ∧
    parse_power "x2".toList = (2, []) ∧
    parse_power "x^2".toList = (1, "^2".toList) ∧
    (∀ e1, peek (skip_whitespace e1) ≠ 'x' → parse_power e1 = (0, skip_whitespace e1)) :=
  ⟨parse_power_numeral expr r ds t hx hr hds hne ht hdot he hxx hlt,
    fun e1 r1 h1 h2 => parse_power_bare e1 r1 h1 h2, by decide, by decide,
    fun e1 h1 => parse_power_not_x e1 h1⟩

/-- C15 (witness): the theorem at the cursor `" x 12 + 1"`: the power is 12 and the cursor is
left at `" + 1"`. -/
theorem C15_witness :
    skip_whitespace " x 12 + 1".toList = 'x' :: " 12 + 1".toList ∧
    decVal "12".toList = 12 ∧
    parse_power " x 12 + 1".toList = (12, " + 1".toList) :=
  ⟨by decide, by decide,
    (C15_parse_power " x 12 + 1".toList " 12 + 1".toList "12".toList " + 1".toList (by decide)
      (by decide) (by decide) (by decide) (by decide) (by decide) (by decide) (by decide)
      (by decide)).1⟩

theorem truncNat_lt_iff (s : Bool) (m : Nat) (e : Int) (n : Nat) :
    (FP.fin s m e).truncNat < n ↔ (m : ℚ) * (2 : ℚ) ^ e < (n : ℚ) := by
  cases e with
  | ofNat k =>
    have h0 : (0 : Int) ≤ Int.ofNat k := Int.ofNat_nonneg k
    simp only [FP.truncNat, if_pos h0, Int.toNat_ofNat, Int.ofNat_eq_coe, zpow_natCast]
    rw [← Nat.cast_lt (α := ℚ)]
    push_cast
    rfl
  | negSucc k =>
    have h0 : ¬ (0 : Int) ≤ Int.negSucc k := by simp
    have hk : (-Int.negSucc k).toNat = k + 1 := by simp [Int.neg_negSucc]
    have hpos : (0 : ℚ) < 2 ^ (k + 1) := by positivity
    simp only [FP.truncNat, if_neg h0, hk, zpow_negSucc]
    rw [Nat.div_lt_iff_lt_mul (Nat.two_pow_pos _), ← div_eq_mul_inv, div_lt_iff₀ hpos,
      ← Nat.cast_lt (α := ℚ)]
    push_cast
    rfl

theorem sample_row_eq (rows cols : Nat) (line : Line) (x : Nat) :
    sample_row rows cols line x = (sample_value rows cols line x).toSizeT := rfl

theorem toSizeT_accept (d : FP) (rows : Nat) (h0 : 0 < rows) (h1 : rows ≤ 2 ^ 63)
    (hinf : d ≠ FP.inf false)
    (hbig : ∀ m e, d = FP.fin false m e → (FP.fin false m e).truncNat < 2 ^ 64) :
    d.toSizeT < rows ↔ row_in_range d rows := by
  cases d with
  | nan => simp [FP.toSizeT, row_in_range, FP.isFinite]; omega
  | inf s =>
    cases s with
    | false => exact absurd rfl hinf
    | true => simp [FP.toSizeT, row_in_range, FP.isFinite]; omega
  | fin s m e =>
    have hmag : (0 : ℚ) ≤ (m : ℚ) * (2 : ℚ) ^ e := by positivity
    have hrows : (0 : ℚ) < (rows : ℚ) := by exact_mod_cast h0
    cases s with
    | false =>
      have key := truncNat_lt_iff false m e rows
      simp only [FP.toSizeT, Bool.false_eq_true, if_false, if_pos (hbig m e rfl), row_in_range,
        FP.isFinite, FP.toRat, one_mul, true_and]
      rw [key]
      constructor
      · intro h; exact ⟨by linarith, h⟩
      · intro h; exact h.2
    | true =>
      have key := truncNat_lt_iff true m e 1
      simp only [FP.toSizeT, if_true, row_in_range, FP.isFinite, FP.toRat, true_and]
      have hval : (-1 : ℚ) < -1 * ((m : ℚ) * (2 : ℚ) ^ e) ∧ -1 * ((m : ℚ) * (2 : ℚ) ^ e) < (rows : ℚ)
          ↔ (FP.fin true m e).truncNat < 1 := by
        rw [key]
        constructor
        · intro h; push_cast; linarith [h.1]
        · intro h; push_cast at h; exact ⟨by linarith, by linarith⟩
      rw [hval]
      generalize (FP.fin true m e).truncNat = t
      split
      · constructor
        · intro h; omega
        · intro h
          have : t = 0 := by omega
          subst this
          simpa using h0
      · constructor
        · intro h; omega
        · intro h; omega

/-- Where the acceptance test of `graph_draw` agrees with `-1 < d < rows`: for
`0 < rows <= 2 ^ 63` and every value `d = dy - value` other than +infinity and the positive
values of `2 ^ 64` or more (negative values, NaN and -infinity included), the sample is accepted
exactly when `d` lies strictly between -1 and `rows`. -/
theorem sample_accept_iff (rows cols : Nat) (line : Line) (x : Nat)
    (h0 : 0 < rows) (h1 : rows ≤ 2 ^ 63)
    (hinf : sample_value rows cols line x ≠ FP.inf false)
    (hbig : ∀ m e, sample_value rows cols line x = FP.fin false m e →
      (FP.fin false m e).truncNat < 2 ^ 64) :
    sample_row rows cols line x < rows ↔ row_in_range (sample_value rows cols line x) rows := by
  rw [sample_row_eq]
  exact toSizeT_accept _ rows h0 h1 hinf hbig

/-- A value strictly between -1 and 0 is accepted at row 0: the constant 5.5 on the grid with
`rows = 10` has `d = -0.5`, its row is 0 and cell (0, 0) is marked. -/
theorem sample_accept_example :
    line_parse 2 [] "5.5".toList = some ([⟨FP.fin false 11534336 (-21), 0⟩], []) ∧
    sample_value 10 10 [⟨FP.fin false 11534336 (-21), 0⟩] 0 = FP.fin true (2 ^ 23) (-24) ∧
    row_in_range (sample_value 10 10 [⟨FP.fin false 11534336 (-21), 0⟩] 0) 10 ∧
    sample_row 10 10 [⟨FP.fin false 11534336 (-21), 0⟩] 0 = 0 ∧
    (graph_draw (graph10 [⟨FP.fin false 11534336 (-21), 0⟩])).grid[0 * 10 + 0]? = some true :=
  ⟨by decide, by decide,
    (sample_accept_iff 10 10 [⟨FP.fin false 11534336 (-21), 0⟩] 0 (by decide) (by decide)
      (by decide) (fun m e h => by rw [← h]; decide)).mp (by decide),
    by decide, by decide⟩

/-- C18 (the code at the failing input): `graph -r 10 -c 10 "0-1e30"` draws the constant
`-1e30`. At column 0 the value `d = dy - value` is the `float` `5 + 1e30`, which does not lie
between -1 and `rows = 10`; yet the row `y` it converts to is 0, the guard `y < rows` accepts the
sample and cell (0, 0) is marked. The conversion of a `float` of `2 ^ 64` or more to `size_t`
is undefined in C; the value 0 is what the code gcc emits on x86-64 gives. -/
theorem C18_huge_sample_accepted :
    graph_args 3 Graph.init
      ["graph".toList, "-r".toList, "10".toList, "-c".toList, "10".toList, "0-1e30".toList] =
      Run.ok (graph10 [⟨FP.zero, 0⟩, ⟨FP.fin true 13234890 76, 0⟩]) ∧
    sample_value 10 10 [⟨FP.zero, 0⟩, ⟨FP.fin true 13234890 76, 0⟩] 0 =
      FP.fin false 13234890 76 ∧
    ¬ row_in_range (sample_value 10 10 [⟨FP.zero, 0⟩, ⟨FP.fin true 13234890 76, 0⟩] 0) 10 ∧
    sample_row 10 10 [⟨FP.zero, 0⟩, ⟨FP.fin true 13234890 76, 0⟩] 0 = 0 ∧
    (graph_draw (graph10 [⟨FP.zero, 0⟩, ⟨FP.fin true 13234890 76, 0⟩])).grid[0 * 10 + 0]? =
      some true := by
  have hv : sample_value 10 10 [⟨FP.zero, 0⟩, ⟨FP.fin true 13234890 76, 0⟩] 0 =
      FP.fin false 13234890 76 := by
    decide
  refine ⟨by decide, hv, ?_, by decide, by decide⟩
  rw [hv]
  simp only [row_in_range, FP.toRat, FP.isFinite]
  norm_num

end GraphC
